import Mathlib

/-!
# StringList and SortedStringList of esp8266_deauther

A shallow embedding of `esp8266_deauther/StringList.cpp`.

Modelling decisions.

* Text. An Arduino `String` and a `char*` buffer are C strings: finite sequences of
  non-NUL bytes followed by a NUL terminator. A text is represented by the list of its
  bytes without the terminator; a byte is a positive natural number.
* Memory. Nodes (`str_t`) live in a heap, a list of cells indexed by address. A cell is
  `some node` while allocated and `none` once freed. `malloc` returns the next unused
  address (allocation is assumed to succeed and never reuses an address). The `char*`
  buffer of a node is owned by that node alone and never written after creation, so it is
  stored in the node as its text.
* Pointers are `Option Nat`, `none` being `NULL`. Reading or writing through `NULL`, a
  freed cell or an unallocated address is undefined behaviour in C++; the model returns
  `none` there.
* Loops that follow `next` links carry a fuel argument, `heap size + 1` at the call site.
  Such a loop can only exceed it on a cyclic chain, where the C++ loop does not return;
  the model returns `none` there as well.
* `int` fields are `Int`. The counters are bounded by the number of allocated nodes and
  by the length of the parsed text, so 32-bit overflow is out of reach and not modelled.
-/

namespace Deauther

/-- A byte of a C string other than the terminator. -/
abbrev CChar := ℕ+

/-- The bytes of a C string, terminator excluded. -/
abbrev CString := List CChar

/-- The libc `strcmp` on NUL-terminated buffers: the difference of the first pair of
bytes that differ, read as `unsigned char`, the terminator being byte 0. -/
def strcmp : CString → CString → Int
  | [], [] => 0
  | [], b :: _ => 0 - ((b : Nat) : Int)
  | a :: _, [] => ((a : Nat) : Int) - 0
  | a :: as, b :: bs => if a = b then strcmp as bs else ((a : Nat) : Int) - ((b : Nat) : Int)

/-- Arduino `String::substring(left, right)`. -/
def substring (s : CString) (left right : Nat) : CString :=
  let lo := if left > right then right else left
  let hi := if left > right then left else right
  if lo ≥ s.length then [] else (s.drop lo).take ((if hi > s.length then s.length else hi) - lo)

/-- The node type `str_t`: the owned text and the successor link. -/
structure str_t where
  ptr : CString
  next : Option Nat
deriving DecidableEq, Repr

/-- Memory holding the nodes: cell `a` is the node at address `a`, `none` once freed. -/
abbrev Heap := List (Option str_t)

/-- Read the node at address `a`; `none` when `a` is not an allocated node. -/
def Heap.deref (h : Heap) (a : Nat) : Option str_t := (h.get? a).join

/-- Allocate a node: the fresh address and the extended heap. -/
def Heap.malloc (h : Heap) (n : str_t) : Nat × Heap := (h.length, h ++ [some n])

/-- Overwrite the node at address `a`. -/
def Heap.store (h : Heap) (a : Nat) (n : str_t) : Heap := h.set a (some n)

/-- Release the node at address `a`. -/
def Heap.free (h : Heap) (a : Nat) : Heap := h.set a none

/-- The fuel given to every loop that follows `next` links. -/
def Heap.fuel (h : Heap) : Nat := h.length + 1

/-- The data members of `StringList` (and of `SortedStringList`, which adds none). -/
structure StringList where
  list_begin : Option Nat
  list_end : Option Nat
  list_size : Int
  list_max_size : Int
  list_h : Option Nat
  list_pos : Int
deriving DecidableEq, Repr

namespace StringList

/-- Modelled from the spec: the member initialisers of the class declaration
(`StringList.h` is not part of the sources). A list is born empty, with `head`, `tail`
and `cursor` unset, size and cursor position 0, and the capacity bound `max` given to
`StringList(int max)`. -/
def new (max : Int) : StringList :=
  { list_begin := none, list_end := none, list_size := 0, list_max_size := max,
    list_h := none, list_pos := 0 }

/-- The text of the buffer made by `stringCopy(str, len)`: the first `len` bytes of `str`
(every caller passes a `len` within `str`). -/
def stringCopy (str : CString) (len : Nat) : CString := str.take len

/-- The overload `compare(const str_t* a, const String& b)`, on the node `a` points to. -/
def compare (a : str_t) (b : CString) : Int := strcmp a.ptr b

/-- The overload `compare(const str_t* a, const str_t* b)`, on the two nodes. -/
def compareNodes (a b : str_t) : Int := strcmp a.ptr b.ptr

/-- The method `push(const char* str, unsigned long len)`. -/
def push (h : Heap) (l : StringList) (str : CString) (len : Nat) :
    Option (Bool × Heap × StringList) :=
  if l.list_max_size > 0 ∧ l.list_size ≥ l.list_max_size then some (false, h, l)
  else
    let m := h.malloc { ptr := stringCopy str len, next := none }
    match l.list_begin with
    | none =>
      some (true, m.2, { l with list_begin := some m.1, list_end := some m.1,
                                list_h := some m.1, list_size := l.list_size + 1 })
    | some _ =>
      match l.list_end with
      | none => none
      | some e =>
        match m.2.deref e with
        | none => none
        | some n =>
          some (true, m.2.store e { n with next := some m.1 },
                { l with list_end := some m.1, list_size := l.list_size + 1 })

/-- The method `push(String str)`. -/
def pushString (h : Heap) (l : StringList) (str : CString) :
    Option (Bool × Heap × StringList) :=
  push h l str str.length

/-- The method `popFirst()`. -/
def popFirst (h : Heap) (l : StringList) : Option (CString × Heap × StringList) :=
  match l.list_begin with
  | none => none
  | some b =>
    match h.deref b with
    | none => none
    | some n =>
      match n.next with
      | some nx =>
        some (n.ptr, h.free b, { l with list_begin := some nx, list_h := some nx, list_pos := 0 })
      | none =>
        some (n.ptr, h.free b,
              { l with list_begin := none, list_end := none, list_h := none, list_pos := 0 })

/-- The `for` loop of `parse`: `n` iterations remain, `i` and `j` are the loop variables. -/
def parseLoop (input delimiter : CString) :
    Nat → Nat → Nat → Heap → StringList → Option (Heap × StringList)
  | 0, _, _, h, l => some (h, l)
  | n + 1, i, j, h, l =>
    if (i : Int) - (j : Int) > 0 ∧
        (i = input.length ∨ substring input i (i + delimiter.length) = delimiter) then
      match push h l (input.drop j) (i - j) with
      | none => none
      | some (_, h1, l1) => parseLoop input delimiter n (i + 1) (i + delimiter.length) h1 l1
    else parseLoop input delimiter n (i + 1) j h l

/-- The method `parse(input, delimiter)`. -/
def parse (h : Heap) (l : StringList) (input delimiter : CString) :
    Option (Heap × StringList) :=
  parseLoop input delimiter (input.length + 1) 0 0 h l

/-- The method `begin()`. -/
def begin (l : StringList) : StringList :=
  { l with list_h := l.list_begin, list_pos := 0 }

/-- The method `iterate()`. -/
def iterate (h : Heap) (l : StringList) : Option (CString × StringList) :=
  match l.list_h with
  | none => some ([], l)
  | some a =>
    match h.deref a with
    | none => none
    | some n => some (n.ptr, { l with list_h := n.next, list_pos := l.list_pos + 1 })

/-- The loop `while (list_h && list_pos<i) iterate();` of `get`. -/
def getLoop (h : Heap) (i : Int) : Nat → StringList → Option StringList
  | 0, _ => none
  | fuel + 1, l =>
    if l.list_h.isSome ∧ l.list_pos < i then
      match iterate h l with
      | none => none
      | some (_, l1) => getLoop h i fuel l1
    else some l

/-- The method `get(i)`. Each turn of the loop increments `list_pos`, so the loop
makes at most `i - list_pos` turns. -/
def get (h : Heap) (l : StringList) (i : Int) : Option (CString × StringList) :=
  let l0 := if i < l.list_pos then begin l else l
  match getLoop h i ((i - l0.list_pos).toNat + 1) l0 with
  | none => none
  | some l1 =>
    match l1.list_h with
    | none => some ([], l1)
    | some a =>
      match h.deref a with
      | none => none
      | some n => some (n.ptr, l1)

/-- The loop of `contains`: the final value of `tmp`. -/
def containsLoop (h : Heap) (str : CString) : Nat → Option Nat → Option (Option Nat)
  | 0, _ => none
  | _ + 1, none => some none
  | fuel + 1, some a =>
    match h.deref a with
    | none => none
    | some n => if compare n str ≠ 0 then containsLoop h str fuel n.next else some (some a)

/-- The method `contains(str)`, with the state it leaves. -/
def contains (h : Heap) (l : StringList) (str : CString) :
    Option (Bool × Heap × StringList) :=
  match containsLoop h str h.fuel l.list_begin with
  | none => none
  | some tmp => some (tmp.isSome, h, l)

/-- The method `available()`. -/
def available (l : StringList) : Bool := l.list_h.isSome

/-- The method `size()`. -/
def size (l : StringList) : Int := l.list_size

/-- The method `full()`. -/
def full (l : StringList) : Bool := decide (l.list_max_size > 0 ∧ l.list_size ≥ l.list_max_size)

/-- The loop of `clear`. -/
def clearLoop : Nat → Heap → Option Nat → Option Heap
  | 0, _, _ => none
  | _ + 1, h, none => some h
  | fuel + 1, h, some a =>
    match h.deref a with
    | none => none
    | some n => clearLoop fuel (h.free a) n.next

/-- The method `clear()`. -/
def clear (h : Heap) (l : StringList) : Option (Heap × StringList) :=
  match clearLoop h.fuel h l.list_begin with
  | none => none
  | some h1 =>
    some (h1, { l with list_begin := none, list_end := none, list_size := 0,
                       list_h := none, list_pos := 0 })

/-- The loop of `moveFrom`, `ih` being the node about to be taken over. -/
def moveLoop : Nat → Heap → StringList → Option Nat → Option (Heap × StringList)
  | 0, _, _, _ => none
  | _ + 1, h, l, none => some (h, l)
  | fuel + 1, h, l, some ih =>
    if l.list_max_size > 0 ∧ l.list_size ≥ l.list_max_size then some (h, l)
    else
      let r : Option (Heap × StringList) :=
        match l.list_begin with
        | none => some (h, { l with list_begin := some ih, list_end := some ih,
                                    list_h := some ih })
        | some _ =>
          match l.list_end with
          | none => none
          | some e =>
            match h.deref e with
            | none => none
            | some n => some (h.store e { n with next := some ih }, { l with list_end := some ih })
      match r with
      | none => none
      | some (h1, l1) =>
        match h1.deref ih with
        | none => none
        | some n => moveLoop fuel h1 { l1 with list_size := l1.list_size + 1 } n.next

/-- The method `moveFrom(sl)` for two distinct list objects: the heap, this list and `sl`
afterwards. -/
def moveFrom (h : Heap) (l sl : StringList) : Option (Heap × StringList × StringList) :=
  match moveLoop h.fuel h l sl.list_begin with
  | none => none
  | some (h1, l1) =>
    some (h1, l1, { sl with list_begin := none, list_end := none, list_size := 0,
                            list_h := none, list_pos := 0 })

/-- The values met by following `next` links from `p` until `NULL`. -/
def chainFrom (h : Heap) : Nat → Option Nat → Option (List CString)
  | 0, _ => none
  | _ + 1, none => some []
  | fuel + 1, some a =>
    match h.deref a with
    | none => none
    | some n => (chainFrom h fuel n.next).map (fun vs => n.ptr :: vs)

/-- The values of the nodes reachable from `list_begin`, in chain order. -/
def chain (h : Heap) (l : StringList) : Option (List CString) :=
  chainFrom h h.fuel l.list_begin

end StringList

namespace SortedStringList

/-- The `while` loop of the in-between branch of `push`: the final `tmp_c`, `tmp_p`, `res`. -/
def pushWalk (h : Heap) (new_str : str_t) :
    Nat → Nat → Option Nat → Int → Option (Nat × Option Nat × Int)
  | 0, _, _, _ => none
  | fuel + 1, tmp_c, tmp_p, res =>
    match h.deref tmp_c with
    | none => none
    | some c =>
      match c.next with
      | none => some (tmp_c, tmp_p, res)
      | some nx =>
        if res < 0 then
          match h.deref nx with
          | none => none
          | some n => pushWalk h new_str fuel nx (some tmp_c) (StringList.compareNodes n new_str)
        else some (tmp_c, tmp_p, res)

/-- The method `SortedStringList::push(const char* str, unsigned long len)`. -/
def push (h : Heap) (l : StringList) (str : CString) (len : Nat) :
    Option (Bool × Heap × StringList) :=
  if l.list_max_size > 0 ∧ l.list_size ≥ l.list_max_size then some (false, h, l)
  else
    let new_str : str_t := { ptr := StringList.stringCopy str len, next := none }
    let m := h.malloc new_str
    match l.list_begin with
    | none =>
      some (true, m.2, { l with list_begin := some m.1, list_end := some m.1,
                                list_h := some m.1, list_size := l.list_size + 1 })
    | some b =>
      match m.2.deref b with
      | none => none
      | some nb =>
        if StringList.compareNodes nb new_str > 0 then
          some (true, m.2.store m.1 { new_str with next := some b },
                { l with list_begin := some m.1, list_size := l.list_size + 1 })
        else
          match l.list_end with
          | none => none
          | some e =>
            match m.2.deref e with
            | none => none
            | some ne =>
              if StringList.compareNodes ne new_str < 0 then
                some (true, m.2.store e { ne with next := some m.1 },
                      { l with list_end := some m.1, list_size := l.list_size + 1 })
              else
                match pushWalk m.2 new_str m.2.fuel b none
                    (StringList.compareNodes nb new_str) with
                | none => none
                | some (tmp_c, tmp_p, res) =>
                  if res = 0 then some (false, m.2.free m.1, l)
                  else
                    let h1 := m.2.store m.1 { new_str with next := some tmp_c }
                    match tmp_p with
                    | none => none
                    | some p =>
                      match h1.deref p with
                      | none => none
                      | some np =>
                        some (true, h1.store p { np with next := some m.1 },
                              { l with list_size := l.list_size + 1 })

/-- The inherited `push(String str)`, dispatching to the sorted `push`. -/
def pushString (h : Heap) (l : StringList) (str : CString) :
    Option (Bool × Heap × StringList) :=
  push h l str str.length

/-- The `while` loop of `contains`: the final `res`. -/
def containsWalk (h : Heap) (str : CString) : Nat → Nat → Int → Option Int
  | 0, _, _ => none
  | fuel + 1, tmp, res =>
    match h.deref tmp with
    | none => none
    | some c =>
      match c.next with
      | none => some res
      | some nx =>
        if res < 0 then
          match h.deref nx with
          | none => none
          | some n => containsWalk h str fuel nx (StringList.compare n str)
        else some res

/-- The method `SortedStringList::contains(str)`, with the state it leaves. The operands
of `||` are evaluated left to right and only as far as needed. -/
def contains (h : Heap) (l : StringList) (str : CString) :
    Option (Bool × Heap × StringList) :=
  if l.list_size = 0 then some (false, h, l)
  else
    match l.list_begin with
    | none => none
    | some b =>
      match h.deref b with
      | none => none
      | some nb =>
        if StringList.compare nb str > 0 then some (false, h, l)
        else
          match l.list_end with
          | none => none
          | some e =>
            match h.deref e with
            | none => none
            | some ne =>
              if StringList.compare ne str < 0 then some (false, h, l)
              else
                match containsWalk h str h.fuel b (StringList.compare nb str) with
                | none => none
                | some res => some (decide (res = 0), h, l)

end SortedStringList

/-! ## Describing a chain and driving sequences of calls -/

/-- The address of the first node of a node list (`NULL` when there is none). -/
def headPtr (ns : List (Nat × CString)) : Option Nat := ns.head?.map Prod.fst

/-- The address of the last node of a node list (`NULL` when there is none). -/
def lastPtr (ns : List (Nat × CString)) : Option Nat := ns.getLast?.map Prod.fst

/-- The nodes `ns`, given as (address, text), are allocated in `h` and each is linked to
the following one, the last one to `NULL`. -/
def Linked (h : Heap) : List (Nat × CString) → Prop
  | [] => True
  | x :: ns => h.deref x.1 = some { ptr := x.2, next := headPtr ns } ∧ Linked h ns

/-- The list object `l` holds exactly the nodes `ns` in `h`: they form its chain from
`list_begin` to `NULL`, at distinct addresses, and `list_end` is the last of them. -/
structure Holds (h : Heap) (l : StringList) (ns : List (Nat × CString)) : Prop where
  linked : Linked h ns
  nodup : (ns.map Prod.fst).Nodup
  head_eq : l.list_begin = headPtr ns
  last_eq : l.list_end = lastPtr ns

/-- A sequence of `push(String)` calls through the method `f`: the value each call
returned, and the final state. -/
def runPush (f : Heap → StringList → CString → Option (Bool × Heap × StringList)) :
    List CString → Heap → StringList → Option (List Bool × Heap × StringList)
  | [], h, l => some ([], h, l)
  | s :: ss, h, l =>
    match f h l s with
    | none => none
    | some (r, h1, l1) =>
      match runPush f ss h1 l1 with
      | none => none
      | some (rs, h2, l2) => some (r :: rs, h2, l2)

/-- The texts whose push returned true, in push order. -/
def accepted : List CString → List Bool → List CString
  | s :: ss, r :: rs => if r then s :: accepted ss rs else accepted ss rs
  | _, _ => []

/-- A sequence of `get` calls: the value each call returned, and the final list object. -/
def runGet (h : Heap) : List Int → StringList → Option (List CString × StringList)
  | [], l => some ([], l)
  | i :: is, l =>
    match StringList.get h l i with
    | none => none
    | some (v, l1) =>
      match runGet h is l1 with
      | none => none
      | some (vs, l2) => some (v :: vs, l2)

/-- The state of a list that was filled by `push` alone: it holds `ns`, `list_size` counts
them, and the cursor is at the head, position 0. -/
structure Filled (h : Heap) (l : StringList) (ns : List (Nat × CString)) : Prop where
  holds : Holds h l ns
  size_eq : l.list_size = ns.length
  pos_eq : l.list_pos = 0
  cur_eq : l.list_h = headPtr ns

/-- The state of a sorted list that was filled by `SortedStringList::push` alone: it holds
`ns`, `list_size` counts them, and every value is less than all values after it. -/
structure SortedFilled (h : Heap) (l : StringList) (ns : List (Nat × CString)) : Prop where
  holds : Holds h l ns
  size_eq : l.list_size = ns.length
  sorted : (ns.map Prod.snd).Pairwise (fun a b => strcmp a b < 0)

/-- A full linear scan of the values `vs` for one equal to `t`. -/
def linearScan (t : CString) : List CString → Bool
  | [] => false
  | v :: vs => if v = t then true else linearScan t vs

/-- A number of consecutive `iterate()` calls: the value each call returned, and the final
list object. -/
def runIterate (h : Heap) : Nat → StringList → Option (List CString × StringList)
  | 0, l => some ([], l)
  | k + 1, l =>
    match StringList.iterate h l with
    | none => none
    | some (v, l1) =>
      match runIterate h k l1 with
      | none => none
      | some (vs, l2) => some (v :: vs, l2)

/-- A number of consecutive `popFirst()` calls: the value each call returned, and the final
state. -/
def runPop : Nat → Heap → StringList → Option (List CString × Heap × StringList)
  | 0, h, l => some ([], h, l)
  | k + 1, h, l =>
    match StringList.popFirst h l with
    | none => none
    | some (v, h1, l1) =>
      match runPop k h1 l1 with
      | none => none
      | some (vs, h2, l2) => some (v :: vs, h2, l2)

/-- The texts that the loop of `parse` hands to `push`, in order, with `n` iterations
remaining and loop variables `i`, `j`: the loop ignores what `push` returns, so they do not
depend on the list. -/
def parseSegments (input delimiter : CString) : Nat → Nat → Nat → List CString
  | 0, _, _ => []
  | n + 1, i, j =>
    if (i : Int) - (j : Int) > 0 ∧
        (i = input.length ∨ substring input i (i + delimiter.length) = delimiter) then
      StringList.stringCopy (input.drop j) (i - j) ::
        parseSegments input delimiter n (i + 1) (i + delimiter.length)
    else parseSegments input delimiter n (i + 1) j

/-- The loop of the inherited `parse` on a `SortedStringList` in case the `push` it calls
dispatches to `SortedStringList::push` (the class declaration, which decides it, is not part
of the sources; `StringList.parseLoop` is the other case). -/
def SortedStringList.parseLoop (input delimiter : CString) :
    Nat → Nat → Nat → Heap → StringList → Option (Heap × StringList)
  | 0, _, _, h, l => some (h, l)
  | n + 1, i, j, h, l =>
    if (i : Int) - (j : Int) > 0 ∧
        (i = input.length ∨ substring input i (i + delimiter.length) = delimiter) then
      match SortedStringList.push h l (input.drop j) (i - j) with
      | none => none
      | some (_, h1, l1) =>
        SortedStringList.parseLoop input delimiter n (i + 1) (i + delimiter.length) h1 l1
    else SortedStringList.parseLoop input delimiter n (i + 1) j h l

/-- The inherited `parse(input, delimiter)` on a `SortedStringList`, in that case. -/
def SortedStringList.parse (h : Heap) (l : StringList) (input delimiter : CString) :
    Option (Heap × StringList) :=
  SortedStringList.parseLoop input delimiter (input.length + 1) 0 0 h l

/-- One step in the life of a list object `l` in the heap `h`: a call of `push`, `parse`,
`popFirst`, `clear` or `moveFrom` on it that returns (for a `StringList` or a
`SortedStringList`, as destination or as source of `moveFrom`), or calls on other objects,
which may change the heap but not this list object. -/
inductive Step : Heap × StringList → Heap × StringList → Prop
  | push {h l str len r h1 l1} :
      StringList.push h l str len = some (r, h1, l1) → Step (h, l) (h1, l1)
  | pushSorted {h l str len r h1 l1} :
      SortedStringList.push h l str len = some (r, h1, l1) → Step (h, l) (h1, l1)
  | parse {h l input delimiter h1 l1} :
      StringList.parse h l input delimiter = some (h1, l1) → Step (h, l) (h1, l1)
  | parseSorted {h l input delimiter h1 l1} :
      SortedStringList.parse h l input delimiter = some (h1, l1) → Step (h, l) (h1, l1)
  | popFirst {h l v h1 l1} :
      StringList.popFirst h l = some (v, h1, l1) → Step (h, l) (h1, l1)
  | clear {h l h1 l1} :
      StringList.clear h l = some (h1, l1) → Step (h, l) (h1, l1)
  | moveInto {h l sl h1 l1 sl1} :
      StringList.moveFrom h l sl = some (h1, l1, sl1) → Step (h, l) (h1, l1)
  | moveOut {h l dst h1 dst1 l1} :
      StringList.moveFrom h dst l = some (h1, dst1, l1) → Step (h, l) (h1, l1)
  | other {h l h1} : Step (h, l) (h1, l)

/-- The states a list constructed with the bound `max` can reach. -/
inductive Reachable (max : Int) : Heap × StringList → Prop
  | new (h0 : Heap) : Reachable max (h0, StringList.new max)
  | step {s s1 : Heap × StringList} : Reachable max s → Step s s1 → Reachable max s1

/-- The values `vs` with `t` inserted immediately before the first value greater than `t`
(at the end when there is none). -/
def insertBeforeGreater (t : CString) : List CString → List CString
  | [] => [t]
  | v :: vs => if strcmp t v < 0 then t :: v :: vs else v :: insertBeforeGreater t vs

/-! # Properties of the embedding -/

open StringList

/-! ## The heap and strcmp -/


theorem deref_lt {h : Heap} {a : Nat} {n : str_t} (hd : h.deref a = some n) : a < h.length := by
  unfold Heap.deref at hd
  by_contra hc
  rw [List.get?_eq_none.mpr (by omega)] at hd
  simp at hd

theorem deref_append_lt (h : Heap) (x : Option str_t) {a : Nat} (ha : a < h.length) :
    Heap.deref (h ++ [x]) a = h.deref a := by
  unfold Heap.deref
  rw [List.get?_eq_getElem?, List.get?_eq_getElem?, List.getElem?_append_left ha]

theorem deref_append_length (h : Heap) (n : str_t) :
    Heap.deref (h ++ [some n]) h.length = some n := by
  unfold Heap.deref
  simp

theorem deref_set_ne (h : Heap) (x : Option str_t) {a b : Nat} (hab : a ≠ b) :
    Heap.deref (h.set a x) b = h.deref b := by
  unfold Heap.deref
  simp [List.getElem?_set_ne hab]

theorem deref_set_eq (h : Heap) (x : Option str_t) {a : Nat} (ha : a < h.length) :
    Heap.deref (h.set a x) a = x := by
  unfold Heap.deref
  simp [ha]

theorem strcmp_self (a : CString) : strcmp a a = 0 := by
  induction a with
  | nil => rfl
  | cons x xs ih => simp [strcmp, ih]

theorem strcmp_neg (a b : CString) : strcmp b a = - strcmp a b := by
  induction a generalizing b with
  | nil => cases b <;> simp [strcmp]
  | cons x xs ih =>
    cases b with
    | nil => simp [strcmp]
    | cons y ys =>
      simp only [strcmp]
      by_cases hxy : x = y
      · subst hxy; simp [ih]
      · have : ¬ y = x := fun h => hxy h.symm
        simp [hxy, this]

theorem strcmp_eq_zero {a b : CString} : strcmp a b = 0 ↔ a = b := by
  induction a generalizing b with
  | nil =>
    cases b with
    | nil => simp [strcmp]
    | cons y ys => simp [strcmp]
  | cons x xs ih =>
    cases b with
    | nil => simp [strcmp]
    | cons y ys =>
      simp only [strcmp]
      by_cases hxy : x = y
      · subst hxy; simp [ih]
      · simp only [hxy, if_false]
        constructor
        · intro h
          exfalso; apply hxy
          have : ((x : Nat) : Int) = ((y : Nat) : Int) := by omega
          exact PNat.eq (by exact_mod_cast this)
        · intro h; simp at h; exact absurd h.1 hxy

theorem strcmp_trans {a b c : CString} (hab : strcmp a b < 0) (hbc : strcmp b c < 0) :
    strcmp a c < 0 := by
  induction a generalizing b c with
  | nil =>
    cases c with
    | nil =>
      cases b with
      | nil => simp [strcmp] at hab
      | cons y ys => simp [strcmp] at hbc; omega
    | cons z zs => simp [strcmp]
  | cons x xs ih =>
    cases b with
    | nil => simp [strcmp] at hab; omega
    | cons y ys =>
      cases c with
      | nil => simp [strcmp] at hbc; omega
      | cons z zs =>
        simp only [strcmp] at hab hbc ⊢
        by_cases hxy : x = y
        · subst hxy
          by_cases hxz : x = z
          · subst hxz
            simp only [if_true] at hab hbc ⊢
            exact ih hab hbc
          · simp only [hxz, if_false, if_true] at hab hbc ⊢
            exact hbc
        · by_cases hyz : y = z
          · subst hyz
            simp only [hxy, if_false] at hab ⊢
            exact hab
          · simp only [hxy, hyz, if_false] at hab hbc
            have hxz : x ≠ z := by
              intro h; subst h; omega
            simp only [hxz, if_false]
            omega

/-! ## Heap and chain lemmas -/

theorem Linked.frame {h h1 : Heap} {ns : List (Nat × CString)} (hl : Linked h ns)
    (hf : ∀ x ∈ ns, h1.deref x.1 = h.deref x.1) : Linked h1 ns := by
  induction ns with
  | nil => trivial
  | cons x xs ih =>
    refine ⟨?_, ih hl.2 (fun y hy => hf y (List.mem_cons_of_mem _ hy))⟩
    rw [hf x (List.mem_cons_self _ _)]
    exact hl.1

theorem Linked.deref_mem {h : Heap} {ns : List (Nat × CString)} (hl : Linked h ns)
    {x : Nat × CString} (hx : x ∈ ns) : ∃ q, h.deref x.1 = some { ptr := x.2, next := q } := by
  induction ns with
  | nil => cases hx
  | cons y ys ih =>
    rcases List.mem_cons.mp hx with rfl | hx1
    · exact ⟨_, hl.1⟩
    · exact ih hl.2 hx1

theorem Linked.lt {h : Heap} {ns : List (Nat × CString)} (hl : Linked h ns)
    {x : Nat × CString} (hx : x ∈ ns) : x.1 < h.length := by
  obtain ⟨q, hq⟩ := hl.deref_mem hx
  exact deref_lt hq

theorem Linked.tail_of_append {h : Heap} {pre ns : List (Nat × CString)}
    (hl : Linked h (pre ++ ns)) : Linked h ns := by
  induction pre with
  | nil => exact hl
  | cons x xs ih => exact ih hl.2

theorem headPtr_append_cons (pre : List (Nat × CString)) (x : Nat × CString)
    (r1 r2 : List (Nat × CString)) :
    headPtr (pre ++ x :: r1) = headPtr (pre ++ x :: r2) := by
  cases pre <;> simp [headPtr]

theorem lastPtr_append_singleton (ns : List (Nat × CString)) (x : Nat × CString) :
    lastPtr (ns ++ [x]) = some x.1 := by
  simp [lastPtr]

theorem set_length_append (h : Heap) (x y : Option str_t) :
    (h ++ [x]).set h.length y = h ++ [y] := by
  induction h with
  | nil => rfl
  | cons a as ih => simp [List.set, ih]

/-- Linking a freshly allocated node after the node at address `p`. -/
theorem Linked.insert_after {h : Heap} {pre rest : List (Nat × CString)} {p : Nat}
    {vp t : CString} (hl : Linked h (pre ++ (p, vp) :: rest))
    (hn : ((pre ++ (p, vp) :: rest).map Prod.fst).Nodup) :
    Linked ((h ++ [some (str_t.mk t (headPtr rest))]).set p
        (some { ptr := vp, next := some h.length }))
      (pre ++ (p, vp) :: (h.length, t) :: rest) := by
  have hplt : p < h.length := hl.lt (x := (p, vp)) (by simp)
  induction pre with
  | nil =>
    simp only [List.nil_append] at hl hn ⊢
    have hn1 : p ∉ rest.map Prod.fst := (List.nodup_cons.mp (by simpa using hn)).1
    refine ⟨?_, ?_, ?_⟩
    · show Heap.deref _ p = _
      rw [deref_set_eq _ _ (by simp; omega)]
      simp [headPtr]
    · show Heap.deref _ h.length = _
      rw [deref_set_ne _ _ (by omega), deref_append_length]
    · apply hl.2.frame
      intro x hx
      have hxp : p ≠ x.1 := fun e => hn1 (e ▸ List.mem_map_of_mem _ hx)
      rw [deref_set_ne _ _ hxp, deref_append_lt _ _ (hl.2.lt hx)]
  | cons y ys ih =>
    simp only [List.cons_append, List.map_cons, List.nodup_cons] at hl hn ⊢
    refine ⟨?_, ih hl.2 hn.2⟩
    have hyp : p ≠ y.1 := by
      intro e
      apply hn.1
      rw [← e]
      simp
    rw [deref_set_ne _ _ hyp, deref_append_lt _ _ (deref_lt hl.1), hl.1,
      headPtr_append_cons ys (p, vp) rest ((h.length, t) :: rest)]

/-- Linking a freshly allocated node in front of a chain. -/
theorem Linked.insert_front {h : Heap} {ns : List (Nat × CString)} {t : CString}
    (hl : Linked h ns) :
    Linked (h ++ [some (str_t.mk t (headPtr ns))]) ((h.length, t) :: ns) := by
  refine ⟨deref_append_length _ _, hl.frame ?_⟩
  intro x hx
  exact deref_append_lt _ _ (hl.lt hx)

theorem Linked.length_le {h : Heap} {ns : List (Nat × CString)} (hl : Linked h ns)
    (hn : (ns.map Prod.fst).Nodup) : ns.length ≤ h.length := by
  have hsub : ns.map Prod.fst ⊆ List.range h.length := by
    intro a ha
    obtain ⟨x, hx, rfl⟩ := List.mem_map.mp ha
    exact List.mem_range.mpr (hl.lt hx)
  have := (List.subperm_of_subset hn hsub).length_le
  simpa using this

theorem Linked.chainFrom {h : Heap} {ns : List (Nat × CString)} (hl : Linked h ns)
    {fuel : Nat} (hf : ns.length < fuel) :
    StringList.chainFrom h fuel (headPtr ns) = some (ns.map Prod.snd) := by
  induction ns generalizing fuel with
  | nil =>
    cases fuel with
    | zero => omega
    | succ k => rfl
  | cons x xs ih =>
    cases fuel with
    | zero => omega
    | succ k =>
      have h1 : xs.length < k := by simpa using hf
      simp [headPtr, StringList.chainFrom, hl.1]
      exact ih hl.2 h1

theorem Holds.chain_eq {h : Heap} {l : StringList} {ns : List (Nat × CString)}
    (hh : Holds h l ns) : StringList.chain h l = some (ns.map Prod.snd) := by
  unfold StringList.chain
  rw [hh.head_eq]
  exact hh.linked.chainFrom (by have := hh.linked.length_le hh.nodup; unfold Heap.fuel; omega)

/-! ## StringList::push -/

theorem eq_nil_or_snoc {α : Type} (ns : List α) : ns = [] ∨ ∃ pre x, ns = pre ++ [x] := by
  rcases ns.eq_nil_or_concat with h | ⟨pre, x, h⟩
  · exact Or.inl h
  · exact Or.inr ⟨pre, x, by rw [h, List.concat_eq_append]⟩

theorem StringList.push_full {h : Heap} {l : StringList}
    (hf : l.list_max_size > 0 ∧ l.list_size ≥ l.list_max_size) (str : CString) (len : Nat) :
    push h l str len = some (false, h, l) := by
  unfold push
  rw [if_pos hf]

theorem Holds.nil_new (h : Heap) (max : Int) : Holds h (StringList.new max) [] :=
  ⟨trivial, List.nodup_nil, rfl, rfl⟩

theorem Holds.fresh_nodup {h : Heap} {l : StringList} {ns : List (Nat × CString)}
    (hh : Holds h l ns) : h.length ∉ ns.map Prod.fst := by
  intro hm
  obtain ⟨x, hx, he⟩ := List.mem_map.mp hm
  have := hh.linked.lt hx
  omega

theorem StringList.push_ok {h : Heap} {l : StringList} {ns : List (Nat × CString)}
    (hh : Holds h l ns) (hf : ¬ (l.list_max_size > 0 ∧ l.list_size ≥ l.list_max_size))
    (str : CString) (len : Nat) :
    ∃ h1 l1, push h l str len = some (true, h1, l1) ∧
      Holds h1 l1 (ns ++ [(h.length, str.take len)]) ∧
      l1.list_size = l.list_size + 1 ∧ l1.list_max_size = l.list_max_size ∧
      l1.list_pos = l.list_pos ∧
      l1.list_h = (if ns = [] then some h.length else l.list_h) := by
  unfold push
  rw [if_neg hf]
  rcases eq_nil_or_snoc ns with rfl | ⟨pre, ⟨e, ve⟩, rfl⟩
  · have hb : l.list_begin = none := hh.head_eq
    simp only [hb, Heap.malloc, stringCopy]
    refine ⟨_, _, rfl, ⟨?_, by simp, rfl, rfl⟩, rfl, rfl, rfl, by simp⟩
    exact @Linked.insert_front h [] (str.take len) trivial
  · have hb : l.list_begin = headPtr (pre ++ [(e, ve)]) := hh.head_eq
    have he : l.list_end = some e := by rw [hh.last_eq]; simp [lastPtr]
    have hde : h.deref e = some { ptr := ve, next := none } :=
      (@Linked.tail_of_append h pre [(e, ve)] hh.linked).1
    have helt : e < h.length := deref_lt hde
    obtain ⟨b, hb1⟩ : ∃ b, l.list_begin = some b := by
      rw [hb]; cases pre <;> simp [headPtr]
    simp only [hb1, he, Heap.malloc, stringCopy, deref_append_lt _ _ helt, hde, Heap.store]
    refine ⟨_, _, rfl, ⟨?_, ?_, ?_, ?_⟩, rfl, rfl, rfl, by simp⟩
    · have := @Linked.insert_after h pre [] e ve (str.take len) hh.linked hh.nodup
      simpa [headPtr] using this
    · have h1 := hh.nodup
      have h2 := hh.fresh_nodup
      simp only [List.map_append, List.map_cons, List.map_nil] at h1 h2 ⊢
      refine List.Nodup.append h1 (by simp) ?_
      simp only [List.disjoint_singleton]
      exact h2
    · show some b = _
      rw [← hb1, hb, List.append_assoc]
      exact headPtr_append_cons pre (e, ve) [] [(h.length, str.take len)]
    · show some h.length = _
      rw [lastPtr_append_singleton]

theorem Filled.of_new (h : Heap) (max : Int) : Filled h (StringList.new max) [] :=
  ⟨Holds.nil_new h max, rfl, rfl, rfl⟩

theorem Filled.pushString_ok {h : Heap} {l : StringList} {ns : List (Nat × CString)}
    (hh : Filled h l ns) (hf : ¬ (l.list_max_size > 0 ∧ l.list_size ≥ l.list_max_size))
    (str : CString) :
    ∃ h1 l1, pushString h l str = some (true, h1, l1) ∧
      Filled h1 l1 (ns ++ [(h.length, str)]) ∧ l1.list_max_size = l.list_max_size := by
  obtain ⟨h1, l1, hp, hh1, hs, hm, hpos, hcur⟩ := push_ok hh.holds hf str str.length
  rw [List.take_length] at hh1
  refine ⟨h1, l1, hp, ⟨hh1, ?_, ?_, ?_⟩, hm⟩
  · rw [hs, hh.size_eq]; simp
  · rw [hpos, hh.pos_eq]
  · rw [hcur]
    rcases ns with _ | ⟨x, xs⟩
    · simp [headPtr]
    · simp [headPtr, hh.cur_eq]

/-- Pushes through `StringList::push` on a list filled by pushes: every call returns, the
list then holds the old values followed by the accepted ones. -/
theorem Filled.runPush_spec {h : Heap} {l : StringList} {ns : List (Nat × CString)}
    (hh : Filled h l ns) (ss : List CString) :
    ∃ rs h1 l1 ns1, runPush pushString ss h l = some (rs, h1, l1) ∧ Filled h1 l1 ns1 ∧
      ns1.map Prod.snd = ns.map Prod.snd ++ accepted ss rs ∧
      l1.list_max_size = l.list_max_size ∧ rs.length = ss.length ∧
      (l1.list_size : Int) = l.list_size + (rs.count true : Nat) := by
  induction ss generalizing h l ns with
  | nil => exact ⟨[], h, l, ns, rfl, hh, by simp [accepted], rfl, rfl, by simp⟩
  | cons s ss ih =>
    by_cases hf : l.list_max_size > 0 ∧ l.list_size ≥ l.list_max_size
    · obtain ⟨rs, h1, l1, ns1, hr, hh1, hv, hm, hlen, hc⟩ := ih hh
      refine ⟨false :: rs, h1, l1, ns1, ?_, hh1, ?_, hm, by simp [hlen], ?_⟩
      · simp [Deauther.runPush, pushString, push_full hf, hr]
      · simpa [accepted] using hv
      · simpa using hc
    · obtain ⟨h0, l0, hp, hh0, hm0⟩ := hh.pushString_ok hf s
      obtain ⟨rs, h1, l1, ns1, hr, hh1, hv, hm, hlen, hc⟩ := ih hh0
      refine ⟨true :: rs, h1, l1, ns1, ?_, hh1, ?_, hm.trans hm0, by simp [hlen], ?_⟩
      · simp [Deauther.runPush, hp, hr]
      · simpa [accepted] using hv
      · rw [hc, hh0.size_eq, hh.size_eq]
        simp
        omega

/-! ## The cursor: iterate and get -/

theorem Linked.deref_drop {h : Heap} {ns : List (Nat × CString)} (hl : Linked h ns)
    {p : Nat} (hp : p < ns.length) :
    headPtr (ns.drop p) = some ns[p].1 ∧
      h.deref ns[p].1 = some { ptr := ns[p].2, next := headPtr (ns.drop (p + 1)) } := by
  have hd : ns.drop p = ns[p] :: ns.drop (p + 1) := List.drop_eq_getElem_cons hp
  have h1 : Linked h (ns.take p ++ ns.drop p) := by rw [List.take_append_drop]; exact hl
  have h2 : Linked h (ns[p] :: ns.drop (p + 1)) := by
    rw [← hd]; exact Linked.tail_of_append h1
  exact ⟨by rw [hd]; rfl, h2.1⟩

theorem headPtr_drop_none {ns : List (Nat × CString)} {p : Nat} (hp : ns.length ≤ p) :
    headPtr (ns.drop p) = none := by
  rw [List.drop_eq_nil_of_le hp]; rfl

theorem StringList.iterate_at {h : Heap} {l : StringList} {ns : List (Nat × CString)}
    (hl : Linked h ns) {p : Nat} (hc : l.list_h = headPtr (ns.drop p)) (hp : p < ns.length) :
    iterate h l = some (ns[p].2,
      { l with list_h := headPtr (ns.drop (p + 1)), list_pos := l.list_pos + 1 }) := by
  obtain ⟨h1, h2⟩ := hl.deref_drop hp
  unfold iterate
  rw [hc, h1]
  simp only [h2]

theorem StringList.iterate_done {h : Heap} {l : StringList} (hc : l.list_h = none) :
    iterate h l = some ([], l) := by
  unfold iterate
  rw [hc]

theorem StringList.getLoop_spec {h : Heap} {ns : List (Nat × CString)} (hl : Linked h ns)
    (i : Nat) (fuel : Nat) (l : StringList) (p : Nat) (hpos : l.list_pos = (p : Int))
    (hc : l.list_h = headPtr (ns.drop p)) (hpi : p ≤ i) (hpn : p ≤ ns.length)
    (hf : i - p < fuel) :
    getLoop h (i : Int) fuel l = some { l with list_h := headPtr (ns.drop (min i ns.length)),
                                               list_pos := ((min i ns.length : Nat) : Int) } := by
  induction fuel generalizing l p with
  | zero => omega
  | succ k ih =>
    unfold getLoop
    by_cases hcond : p < ns.length ∧ p < i
    · have hc1 : l.list_h.isSome ∧ l.list_pos < (i : Int) := by
        rw [hc, (hl.deref_drop hcond.1).1, hpos]
        exact ⟨rfl, by exact_mod_cast hcond.2⟩
      rw [if_pos hc1, iterate_at hl hc hcond.1]
      simp only
      rw [ih _ (p + 1) (by simp [hpos]) rfl (by omega) (by omega) (by omega)]
    · have hc1 : ¬ (l.list_h.isSome ∧ l.list_pos < (i : Int)) := by
        rintro ⟨h1, h2⟩
        rw [hpos] at h2
        have h3 : p < i := by exact_mod_cast h2
        have h4 : p < ns.length := by
          by_contra h5
          rw [hc, headPtr_drop_none (by omega)] at h1
          simp at h1
        exact hcond ⟨h4, h3⟩
      rw [if_neg hc1]
      have hm : min i ns.length = p := by omega
      rw [hm, ← hc, ← hpos]

theorem StringList.get_spec {h : Heap} {l : StringList} {ns : List (Nat × CString)}
    (hh : Holds h l ns) (p : Nat) (hpos : l.list_pos = (p : Int))
    (hc : l.list_h = headPtr (ns.drop p)) (hpn : p ≤ ns.length) (i : Nat) :
    get h l (i : Int) = some ((ns.map Prod.snd).getD i [],
      { l with list_h := headPtr (ns.drop (min i ns.length)),
               list_pos := ((min i ns.length : Nat) : Int) }) := by
  unfold get
  have hloop : ∀ l0 : StringList, l0 = (if (i : Int) < l.list_pos then begin l else l) →
      getLoop h (i : Int) (((i : Int) - l0.list_pos).toNat + 1) l0 =
        some { l with list_h := headPtr (ns.drop (min i ns.length)),
                      list_pos := ((min i ns.length : Nat) : Int) } := by
    intro l0 hl0
    by_cases hlt : (i : Int) < l.list_pos
    · rw [if_pos hlt] at hl0
      subst hl0
      have := getLoop_spec hh.linked i (((i : Int) - (begin l).list_pos).toNat + 1) (begin l) 0
        rfl (by simp [begin, hh.head_eq]) (by omega) (by omega)
        (by simp [begin])
      rw [this]
      rfl
    · rw [if_neg hlt] at hl0
      subst hl0
      rw [hpos] at hlt
      have hpi : p ≤ i := by
        have : ¬ (i < p) := fun hh => hlt (by exact_mod_cast hh)
        omega
      exact getLoop_spec hh.linked i _ l0 p hpos hc hpi hpn (by rw [hpos]; omega)
  simp only [hloop _ rfl]
  by_cases hin : i < ns.length
  · have hm : min i ns.length = i := by omega
    obtain ⟨h1, h2⟩ := hh.linked.deref_drop hin
    simp only [hm, h1, h2]
    congr 2
    simp [List.getD, hin]
  · have hm : min i ns.length = ns.length := by omega
    simp only [hm, headPtr_drop_none (le_refl _)]
    congr 2
    have hnone : (ns.map Prod.snd)[i]? = none := by
      rw [List.getElem?_eq_none_iff]
      simp only [List.length_map]
      exact Nat.le_of_not_lt hin
    simp [List.getD, hnone]

/-! ## Sequences of calls -/

theorem Holds.cursor_moved {h : Heap} {l : StringList} {ns : List (Nat × CString)}
    (hh : Holds h l ns) (c : Option Nat) (p : Int) :
    Holds h { l with list_h := c, list_pos := p } ns :=
  ⟨hh.linked, hh.nodup, hh.head_eq, hh.last_eq⟩

theorem runGet_cons (h : Heap) (i : Int) (is : List Int) (l : StringList) :
    runGet h (i :: is) l =
      match StringList.get h l i with
      | none => none
      | some (v, l1) =>
        match runGet h is l1 with
        | none => none
        | some (vs, l2) => some (v :: vs, l2) := rfl

theorem Holds.runGet_spec {h : Heap} {l : StringList} {ns : List (Nat × CString)}
    (hh : Holds h l ns) (p : Nat) (hpos : l.list_pos = (p : Int))
    (hc : l.list_h = headPtr (ns.drop p)) (hpn : p ≤ ns.length)
    (is : List Int) (hi : ∀ i ∈ is, 0 ≤ i) :
    ∃ l1, Deauther.runGet h is l =
      some (is.map (fun i => (ns.map Prod.snd).getD i.toNat []), l1) := by
  induction is generalizing l p with
  | nil => exact ⟨l, rfl⟩
  | cons i is ih =>
    obtain ⟨k, rfl⟩ := Int.eq_ofNat_of_zero_le (hi i (List.mem_cons_self _ _))
    have hg := get_spec hh p hpos hc hpn k
    obtain ⟨l1, h1⟩ := ih
      (l := { l with list_h := headPtr (ns.drop (min k ns.length)),
                     list_pos := ((min k ns.length : Nat) : Int) })
      (hh.cursor_moved _ _) (min k ns.length) rfl rfl (by omega)
      (fun j hj => hi j (List.mem_cons_of_mem _ hj))
    refine ⟨l1, ?_⟩
    rw [runGet_cons, hg]
    simp only [h1, List.map_cons, Int.toNat_ofNat]

theorem runPush_cons (f : Heap → StringList → CString → Option (Bool × Heap × StringList))
    (s : CString) (ss : List CString) (h : Heap) (l : StringList) :
    runPush f (s :: ss) h l =
      match f h l s with
      | none => none
      | some (r, h1, l1) =>
        match runPush f ss h1 l1 with
        | none => none
        | some (rs, h2, l2) => some (r :: rs, h2, l2) := rfl

theorem runPush_append (f : Heap → StringList → CString → Option (Bool × Heap × StringList))
    (s1 s2 : List CString) (h : Heap) (l : StringList) :
    runPush f (s1 ++ s2) h l =
      match runPush f s1 h l with
      | none => none
      | some (r1, h1, l1) =>
        match runPush f s2 h1 l1 with
        | none => none
        | some (r2, h2, l2) => some (r1 ++ r2, h2, l2) := by
  induction s1 generalizing h l with
  | nil =>
    rw [List.nil_append]
    show _ = match runPush f s2 h l with
      | none => none
      | some (r2, h2, l2) => some ([] ++ r2, h2, l2)
    cases runPush f s2 h l with
    | none => rfl
    | some x => rfl
  | cons s ss ih =>
    rw [List.cons_append, runPush_cons, runPush_cons]
    cases f h l s with
    | none => rfl
    | some x =>
      obtain ⟨r, h1, l1⟩ := x
      simp only
      rw [ih]
      cases runPush f ss h1 l1 with
      | none => rfl
      | some y =>
        obtain ⟨r1, h2, l2⟩ := y
        simp only
        cases runPush f s2 h2 l2 with
        | none => rfl
        | some z => rfl

theorem accepted_length {ss : List CString} {rs : List Bool} (hl : rs.length = ss.length) :
    (accepted ss rs).length = rs.count true := by
  induction ss generalizing rs with
  | nil => cases rs <;> simp_all [accepted]
  | cons s ss ih =>
    cases rs with
    | nil => simp at hl
    | cons r rs =>
      have := @ih rs (by simpa using hl)
      cases r <;> simp [accepted, this]

theorem accepted_replicate_true (ss : List CString) :
    accepted ss (List.replicate ss.length true) = ss := by
  induction ss with
  | nil => rfl
  | cons s ss ih => simp [List.replicate_succ, accepted, ih]

/-- While the bound is not reached every push is accepted. -/
theorem Filled.runPush_room {h : Heap} {l : StringList} {ns : List (Nat × CString)}
    (hh : Filled h l ns) (ss : List CString)
    (hroom : l.list_max_size ≤ 0 ∨ ((ns.length + ss.length : Nat) : Int) ≤ l.list_max_size) :
    ∃ h1 l1 ns1, runPush pushString ss h l = some (List.replicate ss.length true, h1, l1) ∧
      Filled h1 l1 ns1 ∧ ns1.map Prod.snd = ns.map Prod.snd ++ ss ∧
      l1.list_max_size = l.list_max_size := by
  induction ss generalizing h l ns with
  | nil => exact ⟨h, l, ns, rfl, hh, by simp, rfl⟩
  | cons s ss ih =>
    have hf : ¬ (l.list_max_size > 0 ∧ l.list_size ≥ l.list_max_size) := by
      rw [hh.size_eq]
      simp only [List.length_cons] at hroom
      push_cast at hroom
      omega
    obtain ⟨h0, l0, hp, hh0, hm0⟩ := hh.pushString_ok hf s
    obtain ⟨h1, l1, ns1, hr, hh1, hv, hm⟩ := ih hh0 (by
      rw [hm0]
      simp only [List.length_cons, List.length_append, List.length_nil] at hroom ⊢
      push_cast at hroom ⊢
      omega)
    refine ⟨h1, l1, ns1, ?_, hh1, ?_, hm.trans hm0⟩
    · simp [Deauther.runPush, hp, hr, List.replicate_succ]
    · simpa using hv

/-- Once the bound is reached every push is refused and nothing changes. -/
theorem StringList.runPush_full {h : Heap} {l : StringList}
    (hf : l.list_max_size > 0 ∧ l.list_size ≥ l.list_max_size) (ss : List CString) :
    runPush pushString ss h l = some (List.replicate ss.length false, h, l) := by
  induction ss with
  | nil => rfl
  | cons s ss ih => simp [Deauther.runPush, pushString, push_full hf, ih, List.replicate_succ]

/-! ## C1 and C2 -/

/-- C1: on a list that starts empty (any bound), after any sequence of pushes `size()` is the
number of pushes that returned true, and any sequence of `get` calls with indices in range
returns, for each index `i`, the `i`-th accepted value in push order. -/
theorem StringList.push_then_get (h0 : Heap) (max : Int) (ss : List CString) :
    ∃ rs h l, runPush pushString ss h0 (new max) = some (rs, h, l) ∧
      size l = ((rs.count true : Nat) : Int) ∧ (accepted ss rs).length = rs.count true ∧
      ∀ is : List Int, (∀ i ∈ is, 0 ≤ i ∧ i < size l) →
        ∃ l1, runGet h is l = some (is.map (fun i => (accepted ss rs).getD i.toNat []), l1) := by
  obtain ⟨rs, h, l, ns, hr, hf, hv, _, hlen, hc⟩ := (Filled.of_new h0 max).runPush_spec ss
  refine ⟨rs, h, l, hr, ?_, accepted_length hlen, ?_⟩
  · rw [size, hc]; simp [new]
  · intro is hi
    have hv1 : ns.map Prod.snd = accepted ss rs := by simpa using hv
    rw [← hv1]
    exact hf.holds.runGet_spec 0 hf.pos_eq (by simpa using hf.cur_eq) (by omega) is
      (fun i hm => (hi i hm).1)

/-- C1 at a list with bound 2 pushed 3 texts and read at indices 1, 0, 1. -/
theorem StringList.push_then_get_witness :
    ∃ l1, runGet [some ⟨[97], some 1⟩, some ⟨[98], none⟩] [1, 0, 1]
      ⟨some 0, some 1, 2, 2, some 0, 0⟩ = some ([[98], [97], [98]], l1) := by
  obtain ⟨rs, h, l, hr, _, _, hg⟩ := StringList.push_then_get [] 2 [[97], [98], [99]]
  have he : runPush pushString [[97], [98], [99]] [] (new 2) =
      some ([true, true, false], [some ⟨[97], some 1⟩, some ⟨[98], none⟩],
        ⟨some 0, some 1, 2, 2, some 0, 0⟩) := by decide
  rw [he] at hr
  simp only [Option.some.injEq, Prod.mk.injEq] at hr
  obtain ⟨rfl, rfl, rfl⟩ := hr
  exact hg [1, 0, 1] (by decide)

/-- C2: on a new list with bound `k > 0` that is pushed `k + m` texts, the first `k` pushes
return true; every later push returns false and leaves the heap and the list object as they
were after the `k`-th push; then `size() == k`, `full()` holds and the chain is the first `k`
texts in push order. -/
theorem StringList.push_beyond_bound (h0 : Heap) (k m : Nat) (ss : List CString)
    (hk : 0 < k) (hlen : ss.length = k + m) :
    ∃ h l, runPush pushString (ss.take k) h0 (new (k : Int)) =
        some (List.replicate k true, h, l) ∧
      (∀ j, j ≤ m → runPush pushString (ss.take (k + j)) h0 (new (k : Int)) =
        some (List.replicate k true ++ List.replicate j false, h, l)) ∧
      (∀ s, pushString h l s = some (false, h, l)) ∧
      size l = (k : Int) ∧ full l = true ∧ chain h l = some (ss.take k) := by
  have hlk : (ss.take k).length = k := by rw [List.length_take]; omega
  obtain ⟨h, l, ns, hr, hf, hv, hm⟩ := (Filled.of_new h0 (k : Int)).runPush_room (ss.take k)
    (Or.inr (by simp [new]))
  rw [hlk] at hr
  have hv1 : ns.map Prod.snd = ss.take k := by simpa using hv
  have hn : ns.length = k := by
    have := congrArg List.length hv1
    rw [List.length_map, hlk] at this
    exact this
  have hmax : l.list_max_size = (k : Int) := hm
  have hfull : l.list_max_size > 0 ∧ l.list_size ≥ l.list_max_size := by
    rw [hmax, hf.size_eq, hn]
    omega
  refine ⟨h, l, hr, ?_, fun s => push_full hfull s s.length, ?_, ?_, ?_⟩
  · intro j hj
    have hsplit : ss.take (k + j) = ss.take k ++ (ss.drop k).take j := by
      rw [List.take_add]
    have hlj : ((ss.drop k).take j).length = j := by
      rw [List.length_take, List.length_drop]; omega
    rw [hsplit, runPush_append, hr]
    simp only [runPush_full hfull, hlj]
  · rw [size, hf.size_eq, hn]
  · simp only [full, decide_eq_true_eq]
    exact hfull
  · rw [hf.holds.chain_eq, hv1]

/-- C2 at bound 2 and the three texts "a", "b", "c". -/
theorem StringList.push_beyond_bound_witness :
    ∃ h l, runPush pushString [[97], [98]] [] (new 2) = some ([true, true], h, l) ∧
      runPush pushString [[97], [98], [99]] [] (new 2) = some ([true, true, false], h, l) ∧
      size l = 2 ∧ full l = true ∧ chain h l = some [[97], [98]] := by
  obtain ⟨h, l, h1, h2, _, h4, h5, h6⟩ :=
    StringList.push_beyond_bound [] 2 1 [[97], [98], [99]] (by decide) rfl
  exact ⟨h, l, h1, h2 1 (le_refl 1), h4, h5, h6⟩

/-! ## SortedStringList::push -/

theorem Linked.deref_mid {h : Heap} {pre rest : List (Nat × CString)} {c : Nat × CString}
    (hl : Linked h (pre ++ c :: rest)) :
    h.deref c.1 = some { ptr := c.2, next := headPtr rest } :=
  (@Linked.tail_of_append h pre (c :: rest) hl).1

theorem lastPtr_nil : lastPtr [] = none := rfl

theorem headPtr_cons (x : Nat × CString) (xs : List (Nat × CString)) :
    headPtr (x :: xs) = some x.1 := rfl

theorem SortedStringList.pushWalk_spec {h : Heap} (new_str : str_t)
    (rest : List (Nat × CString)) :
    ∀ (pre : List (Nat × CString)) (c : Nat × CString) (fuel : Nat),
      Linked h (pre ++ c :: rest) → rest.length < fuel →
      (∀ y ∈ pre, strcmp y.2 new_str.ptr < 0) →
      ∃ pre1 c1 rest1, pre ++ c :: rest = pre1 ++ c1 :: rest1 ∧
        SortedStringList.pushWalk h new_str fuel c.1 (lastPtr pre) (strcmp c.2 new_str.ptr) =
          some (c1.1, lastPtr pre1, strcmp c1.2 new_str.ptr) ∧
        (∀ y ∈ pre1, strcmp y.2 new_str.ptr < 0) ∧
        (rest1 = [] ∨ ¬ strcmp c1.2 new_str.ptr < 0) := by
  induction rest with
  | nil =>
    intro pre c fuel hl hf hpre
    cases fuel with
    | zero => omega
    | succ k =>
      refine ⟨pre, c, [], rfl, ?_, hpre, Or.inl rfl⟩
      have hd := hl.deref_mid
      simp only [SortedStringList.pushWalk, hd, headPtr, List.head?_nil, Option.map_none']
  | cons d rest2 ih =>
    intro pre c fuel hl hf hpre
    cases fuel with
    | zero => omega
    | succ k =>
      have hd := hl.deref_mid
      by_cases hres : strcmp c.2 new_str.ptr < 0
      · have hl2 : Linked h ((pre ++ [c]) ++ d :: rest2) := by simpa using hl
        have hdd := hl2.deref_mid
        obtain ⟨pre1, c1, rest1, he, hw, hp1, hr1⟩ := ih (pre ++ [c]) d k hl2
          (by simpa using hf) (by
            intro y hy
            rcases List.mem_append.mp hy with hy1 | hy1
            · exact hpre y hy1
            · rw [List.mem_singleton.mp hy1]; exact hres)
        refine ⟨pre1, c1, rest1, by rw [← he]; simp, ?_, hp1, hr1⟩
        rw [lastPtr_append_singleton] at hw
        simp only [SortedStringList.pushWalk, hd, headPtr_cons, hres, if_true, hdd,
          compareNodes]
        exact hw
      · refine ⟨pre, c, d :: rest2, rfl, ?_, hpre, Or.inr hres⟩
        simp only [SortedStringList.pushWalk, hd, headPtr_cons, hres, if_false]

theorem SortedFilled.of_new_sorted (h : Heap) (max : Int) : SortedFilled h (StringList.new max) [] :=
  ⟨Holds.nil_new h max, rfl, List.Pairwise.nil⟩

theorem Holds.frame_heap {h h1 : Heap} {l : StringList} {ns : List (Nat × CString)}
    (hh : Holds h l ns) (hf : ∀ x ∈ ns, h1.deref x.1 = h.deref x.1) : Holds h1 l ns :=
  ⟨hh.linked.frame hf, hh.nodup, hh.head_eq, hh.last_eq⟩

theorem Holds.append_cell {h : Heap} {l : StringList} {ns : List (Nat × CString)}
    (hh : Holds h l ns) (x : Option str_t) : Holds (h ++ [x]) l ns :=
  hh.frame_heap (fun _ hy => deref_append_lt _ _ (hh.linked.lt hy))

theorem lastPtr_cons_cons (x y : Nat × CString) (ys : List (Nat × CString)) :
    lastPtr (x :: y :: ys) = lastPtr (y :: ys) := by
  simp only [lastPtr, List.getLast?_cons_cons]

theorem lastPtr_append_cons (pre : List (Nat × CString)) (x : Nat × CString)
    (ys : List (Nat × CString)) : lastPtr (pre ++ x :: ys) = lastPtr (x :: ys) := by
  have hs : (x :: ys).getLast? = some ((x :: ys).getLast (by simp)) :=
    List.getLast?_eq_getLast _ _
  simp [lastPtr, List.getLast?_append, hs]

theorem strcmp_pos_iff {a b : CString} : strcmp a b > 0 ↔ strcmp b a < 0 := by
  rw [strcmp_neg a b]; omega

theorem pairwise_insert {α : Type} {R : α → α → Prop} {pre post : List α} {t : α}
    (hp : (pre ++ post).Pairwise R) (h1 : ∀ y ∈ pre, R y t) (h2 : ∀ y ∈ post, R t y) :
    (pre ++ t :: post).Pairwise R := by
  rw [List.pairwise_append] at hp ⊢
  refine ⟨hp.1, List.pairwise_cons.mpr ⟨h2, hp.2.1⟩, ?_⟩
  intro a ha b hb
  rcases List.mem_cons.mp hb with rfl | hb1
  · exact h1 a ha
  · exact hp.2.2 a ha b hb1

theorem Holds.nodup_insert {h : Heap} {l : StringList} {pre post : List (Nat × CString)}
    (hh : Holds h l (pre ++ post)) (t : CString) :
    ((pre ++ (h.length, t) :: post).map Prod.fst).Nodup := by
  have h1 := hh.nodup
  have h2 := hh.fresh_nodup
  simp only [List.map_append, List.map_cons] at h1 h2 ⊢
  exact List.nodup_middle.mpr (List.nodup_cons.mpr ⟨h2, h1⟩)

/-- The heap and list object after a fresh node is linked in front of a non-empty chain. -/
theorem Holds.link_front {h : Heap} {l : StringList} {b : Nat × CString}
    {tl : List (Nat × CString)} (hh : Holds h l (b :: tl)) (t : CString) (s : Int) :
    Holds (h ++ [some (str_t.mk t (some b.1))])
      { l with list_begin := some h.length, list_size := s } ((h.length, t) :: b :: tl) := by
  refine ⟨?_, @Holds.nodup_insert h l [] (b :: tl) hh t, rfl, ?_⟩
  · exact @Linked.insert_front h (b :: tl) t hh.linked
  · show l.list_end = _
    rw [lastPtr_cons_cons, hh.last_eq]

/-- The heap and list object after a fresh node is linked behind the node `p` of the chain. -/
theorem Holds.link_after {h : Heap} {l : StringList} {pre rest : List (Nat × CString)}
    {p : Nat × CString} (hh : Holds h l (pre ++ p :: rest)) (t : CString) (s : Int) :
    Holds ((h ++ [some (str_t.mk t (headPtr rest))]).set p.1
        (some (str_t.mk p.2 (some h.length))))
      { l with list_end := if rest = [] then some h.length else l.list_end, list_size := s }
      (pre ++ p :: (h.length, t) :: rest) := by
  have hn := @Holds.nodup_insert h l (pre ++ [p]) rest (by simpa using hh) t
  refine ⟨?_, by simpa using hn, ?_, ?_⟩
  · exact @Linked.insert_after h pre rest p.1 p.2 t hh.linked hh.nodup
  · show l.list_begin = _
    rw [hh.head_eq]
    exact headPtr_append_cons pre p rest ((h.length, t) :: rest)
  · show (if rest = [] then some h.length else l.list_end) = _
    cases rest with
    | nil =>
      rw [if_pos rfl, lastPtr_append_cons, lastPtr_cons_cons]
      rfl
    | cons c cs =>
      rw [if_neg (by simp), hh.last_eq]
      have e1 : pre ++ p :: c :: cs = (pre ++ [p]) ++ c :: cs := by simp
      have e2 : pre ++ p :: (h.length, t) :: c :: cs = (pre ++ [p, (h.length, t)]) ++ c :: cs := by
        simp
      rw [e1, e2, lastPtr_append_cons, lastPtr_append_cons]

theorem strcmp_lt_ne {a b : CString} (hab : strcmp a b < 0) : a ≠ b := by
  intro e
  rw [e, strcmp_self] at hab
  omega

theorem not_mem_of_between {pre post : List (Nat × CString)} {t : CString}
    (h1 : ∀ y ∈ pre, strcmp y.2 t < 0) (h2 : ∀ y ∈ post, strcmp t y.2 < 0) :
    t ∉ (pre ++ post).map Prod.snd := by
  intro hm
  obtain ⟨y, hy, rfl⟩ := List.mem_map.mp hm
  rcases List.mem_append.mp hy with hy1 | hy1
  · exact strcmp_lt_ne (h1 y hy1) rfl
  · exact strcmp_lt_ne (h2 y hy1) rfl

/-- `SortedStringList::push` on a list that holds a strictly ascending chain and is not
full: either the text is already held and the push is refused, or the fresh node is linked
between the values less than the text and the values greater than it. -/
theorem SortedStringList.push_spec_of_holds {h : Heap} {l : StringList}
    {ns : List (Nat × CString)} (hh : Holds h l ns)
    (hs : (ns.map Prod.snd).Pairwise (fun a b => strcmp a b < 0))
    (hf : ¬ (l.list_max_size > 0 ∧ l.list_size ≥ l.list_max_size)) (str : CString) (len : Nat) :
    (str.take len ∈ ns.map Prod.snd ∧
        SortedStringList.push h l str len = some (false, h ++ [none], l)) ∨
    (∃ pre post h1 l1, ns = pre ++ post ∧
        (∀ y ∈ pre, strcmp y.2 (str.take len) < 0) ∧
        (∀ y ∈ post, strcmp (str.take len) y.2 < 0) ∧
        SortedStringList.push h l str len = some (true, h1, l1) ∧
        Holds h1 l1 (pre ++ (h.length, str.take len) :: post) ∧
        l1.list_size = l.list_size + 1 ∧ l1.list_max_size = l.list_max_size ∧
        l1.list_pos = l.list_pos ∧
        l1.list_h = (if ns = [] then some h.length else l.list_h)) := by
  unfold SortedStringList.push
  rw [if_neg hf]
  cases ns with
  | nil =>
    right
    have hb : l.list_begin = none := hh.head_eq
    simp only [hb, Heap.malloc, stringCopy]
    refine ⟨[], [], _, _, rfl, by simp, by simp, rfl, ⟨?_, by simp, rfl, rfl⟩, rfl, rfl, rfl,
      by simp⟩
    exact @Linked.insert_front h [] (str.take len) trivial
  | cons b tl =>
    have hb : l.list_begin = some b.1 := hh.head_eq
    have hdb : h.deref b.1 = some { ptr := b.2, next := headPtr tl } := hh.linked.1
    have hblt : b.1 < h.length := deref_lt hdb
    have hsorted := hs
    simp only [List.map_cons, List.pairwise_cons] at hsorted
    by_cases c1 : strcmp b.2 (str.take len) > 0
    · right
      simp only [hb, Heap.malloc, stringCopy, deref_append_lt _ _ hblt, hdb, compareNodes, c1,
        if_true, Heap.store, set_length_append]
      have ht : strcmp (str.take len) b.2 < 0 := strcmp_pos_iff.mp c1
      refine ⟨[], b :: tl, _, _, rfl, by simp, ?_, rfl, hh.link_front _ _, rfl, rfl, rfl,
        by simp⟩
      intro y hy
      rcases List.mem_cons.mp hy with rfl | hy1
      · exact ht
      · exact strcmp_trans ht (hsorted.1 y.2 (List.mem_map_of_mem _ hy1))
    · obtain ⟨pre0, e, hns⟩ : ∃ pre0 e, b :: tl = pre0 ++ [e] := by
        rcases eq_nil_or_snoc (b :: tl) with h0 | h0
        · simp at h0
        · exact h0
      have hl0 : Linked h (pre0 ++ [e]) := hns ▸ hh.linked
      have hde : h.deref e.1 = some { ptr := e.2, next := none } := hl0.deref_mid
      have helt : e.1 < h.length := deref_lt hde
      have he : l.list_end = some e.1 := by
        rw [hh.last_eq, hns, lastPtr_append_singleton]
      by_cases c2 : strcmp e.2 (str.take len) < 0
      · right
        simp only [hb, Heap.malloc, stringCopy, deref_append_lt _ _ hblt, hdb, compareNodes,
          c1, if_false, he, deref_append_lt _ _ helt, hde, c2, if_true, Heap.store]
        have hh0 : Holds h l (pre0 ++ e :: []) := hns ▸ hh
        have hk := hh0.link_after (str.take len) (l.list_size + 1)
        rw [if_pos rfl] at hk
        have hsort0 : ((pre0 ++ [e]).map Prod.snd).Pairwise (fun a b => strcmp a b < 0) :=
          hns ▸ hs
        refine ⟨b :: tl, [], _, _, by simp, ?_, by simp, rfl, ?_, rfl, rfl, rfl, by simp⟩
        · intro y hy
          rw [hns] at hy
          rcases List.mem_append.mp hy with hy1 | hy1
          · rw [List.map_append, List.pairwise_append] at hsort0
            exact strcmp_trans (hsort0.2.2 y.2 (List.mem_map_of_mem _ hy1) e.2 (by simp)) c2
          · rw [List.mem_singleton.mp hy1]; exact c2
        · rw [hns]
          simpa [headPtr, hb] using hk
      · have hcell := hh.append_cell (some (str_t.mk (str.take len) none))
        have hfuel : tl.length < Heap.fuel (h ++ [some (str_t.mk (str.take len) none)]) := by
          have := hh.linked.length_le hh.nodup
          simp only [Heap.fuel, List.length_append, List.length_cons, List.length_nil] at this ⊢
          omega
        obtain ⟨pre1, c, rest1, hsplit, hw, hp1, hr1⟩ :=
          SortedStringList.pushWalk_spec (str_t.mk (str.take len) none) tl [] b _
            hcell.linked hfuel (by simp)
        simp only [List.nil_append, lastPtr_nil] at hsplit hw
        have hres : ¬ strcmp c.2 (str.take len) < 0 := by
          rcases hr1 with hr | hr
          · subst hr
            have h3 : pre1 ++ [c] = pre0 ++ [e] := by rw [← hsplit, ← hns]
            have h4 := (List.append_inj' h3 rfl).2
            simp only [List.cons.injEq, and_true] at h4
            rw [h4]
            exact c2
          · exact hr
        by_cases c3 : strcmp c.2 (str.take len) = 0
        · left
          refine ⟨?_, ?_⟩
          · have hc : c ∈ b :: tl := by rw [hsplit]; simp
            exact List.mem_map.mpr ⟨c, hc, strcmp_eq_zero.mp c3⟩
          · simp only [hb, Heap.malloc, stringCopy, deref_append_lt _ _ hblt, hdb, compareNodes,
              c1, if_false, he, deref_append_lt _ _ helt, hde, c2, hw, c3, if_true, Heap.free,
              set_length_append]
        · right
          obtain ⟨pre2, p, hp⟩ : ∃ pre2 p, pre1 = pre2 ++ [p] := by
            rcases eq_nil_or_snoc pre1 with h0 | h0
            · subst h0
              simp only [List.nil_append, List.cons.injEq] at hsplit
              rw [← hsplit.1] at hres c3
              exfalso
              omega
            · exact h0
          subst hp
          have hsplit2 : b :: tl = pre2 ++ p :: c :: rest1 := by rw [hsplit]; simp
          have hh2 : Holds h l (pre2 ++ p :: c :: rest1) := hsplit2 ▸ hh
          have hdp : h.deref p.1 = some { ptr := p.2, next := some c.1 } := hh2.linked.deref_mid
          have hplt : p.1 < h.length := deref_lt hdp
          have hk := hh2.link_after (str.take len) (l.list_size + 1)
          rw [if_neg (by simp)] at hk
          have ht : strcmp (str.take len) c.2 < 0 := by
            apply strcmp_pos_iff.mp
            omega
          have hsort2 : ((pre2 ++ p :: c :: rest1).map Prod.snd).Pairwise
              (fun a b => strcmp a b < 0) := hsplit2 ▸ hs
          simp only [hb, Heap.malloc, stringCopy, deref_append_lt _ _ hblt, hdb, compareNodes,
            c1, if_false, he, deref_append_lt _ _ helt, hde, c2, hw, c3, Heap.store,
            set_length_append, lastPtr_append_singleton, deref_append_lt _ _ hplt, hdp]
          refine ⟨pre2 ++ [p], c :: rest1, _, _, by rw [hsplit], hp1, ?_, rfl, ?_,
            rfl, rfl, rfl, by simp⟩
          · intro y hy
            rcases List.mem_cons.mp hy with rfl | hy1
            · exact ht
            · refine strcmp_trans ht ?_
              rw [List.map_append, List.pairwise_append] at hsort2
              have h5 := hsort2.2.1
              simp only [List.map_cons, List.pairwise_cons] at h5
              exact h5.2.1 y.2 (List.mem_map_of_mem _ hy1)
          · simpa [headPtr, hb, he] using hk

theorem SortedStringList.push_spec {h : Heap} {l : StringList} {ns : List (Nat × CString)}
    (hh : SortedFilled h l ns)
    (hf : ¬ (l.list_max_size > 0 ∧ l.list_size ≥ l.list_max_size)) (str : CString) (len : Nat) :
    (str.take len ∈ ns.map Prod.snd ∧
        SortedStringList.push h l str len = some (false, h ++ [none], l)) ∨
    (∃ pre post h1 l1, ns = pre ++ post ∧
        (∀ y ∈ pre, strcmp y.2 (str.take len) < 0) ∧
        (∀ y ∈ post, strcmp (str.take len) y.2 < 0) ∧
        SortedStringList.push h l str len = some (true, h1, l1) ∧
        Holds h1 l1 (pre ++ (h.length, str.take len) :: post) ∧
        l1.list_size = l.list_size + 1 ∧ l1.list_max_size = l.list_max_size ∧
        l1.list_pos = l.list_pos ∧
        l1.list_h = (if ns = [] then some h.length else l.list_h)) :=
  SortedStringList.push_spec_of_holds hh.holds hh.sorted hf str len

theorem SortedStringList.sorted_push_full {h : Heap} {l : StringList}
    (hf : l.list_max_size > 0 ∧ l.list_size ≥ l.list_max_size) (str : CString) (len : Nat) :
    SortedStringList.push h l str len = some (false, h, l) := by
  unfold SortedStringList.push
  rw [if_pos hf]

/-- One `push(String)` on a sorted list filled by pushes: the call returns, the list stays
sorted, a refused push changes neither the list object nor the nodes it holds, a value
already held is refused, and an accepted value is held afterwards. -/
theorem SortedFilled.pushString_spec {h : Heap} {l : StringList} {ns : List (Nat × CString)}
    (hh : SortedFilled h l ns) (s : CString) :
    ∃ r h1 l1 ns1, SortedStringList.pushString h l s = some (r, h1, l1) ∧
      SortedFilled h1 l1 ns1 ∧ l1.list_max_size = l.list_max_size ∧
      (r = false → l1 = l ∧ ns1 = ns) ∧ (s ∈ ns.map Prod.snd → r = false) ∧
      (r = true → s ∈ ns1.map Prod.snd ∧ l1.list_size = l.list_size + 1) := by
  unfold SortedStringList.pushString
  by_cases hf : l.list_max_size > 0 ∧ l.list_size ≥ l.list_max_size
  · exact ⟨false, h, l, ns, SortedStringList.sorted_push_full hf _ _, hh, rfl, fun _ => ⟨rfl, rfl⟩,
      fun _ => rfl, fun hc => by simp at hc⟩
  · have hspec := SortedStringList.push_spec hh hf s s.length
    rw [List.take_length] at hspec
    rcases hspec with ⟨_, hp⟩ | ⟨pre, post, h1, l1, hns, hpre, hpost, hp, hh1, hs, hm, _, _⟩
    · exact ⟨false, h ++ [none], l, ns, hp, ⟨hh.holds.append_cell none, hh.size_eq, hh.sorted⟩,
        rfl, fun _ => ⟨rfl, rfl⟩, fun _ => rfl, fun hc => by simp at hc⟩
    · refine ⟨true, h1, l1, pre ++ (h.length, s) :: post, hp, ⟨hh1, ?_, ?_⟩, hm,
        fun hc => by simp at hc, ?_, fun _ => ⟨by simp, hs⟩⟩
      · rw [hs, hh.size_eq, hns]
        simp only [List.length_append, List.length_cons]
        push_cast
        omega
      · have hso := hh.sorted
        rw [hns, List.map_append] at hso
        rw [List.map_append, List.map_cons]
        refine pairwise_insert hso ?_ ?_
        · intro y hy
          obtain ⟨x, hx, rfl⟩ := List.mem_map.mp hy
          exact hpre x hx
        · intro y hy
          obtain ⟨x, hx, rfl⟩ := List.mem_map.mp hy
          exact hpost x hx
      · intro hmem
        exact absurd (hns ▸ hmem) (not_mem_of_between hpre hpost)

theorem SortedFilled.runPush_sorted_spec {h : Heap} {l : StringList} {ns : List (Nat × CString)}
    (hh : SortedFilled h l ns) (ss : List CString) :
    ∃ rs h1 l1 ns1, runPush SortedStringList.pushString ss h l = some (rs, h1, l1) ∧
      SortedFilled h1 l1 ns1 ∧ l1.list_max_size = l.list_max_size := by
  induction ss generalizing h l ns with
  | nil => exact ⟨[], h, l, ns, rfl, hh, rfl⟩
  | cons s ss ih =>
    obtain ⟨r, h0, l0, ns0, hp, hh0, hm0, _⟩ := hh.pushString_spec s
    obtain ⟨rs, h1, l1, ns1, hr, hh1, hm1⟩ := ih hh0
    exact ⟨r :: rs, h1, l1, ns1, by rw [runPush_cons, hp]; simp only [hr], hh1, hm1.trans hm0⟩

theorem SortedFilled.chain_values {h : Heap} {l : StringList} {ns : List (Nat × CString)}
    (hh : SortedFilled h l ns) : StringList.chain h l = some (ns.map Prod.snd) :=
  hh.holds.chain_eq

/-! ## C3 and C4 -/

/-- C3: on a sorted list that starts empty (any bound), after any sequence of pushes the chain
from head to tail is strictly ascending under `strcmp`: every adjacent pair `(prev, next)` has
`compare(prev, next) < 0`, and no value occurs twice. -/
theorem SortedStringList.push_keeps_strictly_ascending (h0 : Heap) (max : Int)
    (ss : List CString) :
    ∃ rs h l vs, runPush SortedStringList.pushString ss h0 (StringList.new max) =
        some (rs, h, l) ∧ StringList.chain h l = some vs ∧
      vs.Chain' (fun prev next => strcmp prev next < 0) ∧ vs.Nodup := by
  obtain ⟨rs, h, l, ns, hr, hh, _⟩ := (SortedFilled.of_new_sorted h0 max).runPush_sorted_spec ss
  refine ⟨rs, h, l, ns.map Prod.snd, hr, hh.chain_values, hh.sorted.chain', ?_⟩
  exact hh.sorted.imp (fun hab => strcmp_lt_ne hab)

/-- C4: on a sorted list built by pushes, pushing a text `t` that the chain already holds
returns false and leaves the list object (hence `size()`) and the chain of values unchanged;
and for any text, a second push of it right after the first returns false and leaves the
list object as the first push left it. -/
theorem SortedStringList.push_rejects_duplicate (h0 : Heap) (max : Int) (ss : List CString) :
    ∃ rs h l vs, runPush SortedStringList.pushString ss h0 (StringList.new max) =
        some (rs, h, l) ∧ StringList.chain h l = some vs ∧
      (∀ t, t ∈ vs → ∃ h1, SortedStringList.pushString h l t = some (false, h1, l) ∧
        StringList.chain h1 l = some vs) ∧
      (∀ t, ∃ r h1 l1 h2, SortedStringList.pushString h l t = some (r, h1, l1) ∧
        SortedStringList.pushString h1 l1 t = some (false, h2, l1) ∧
        StringList.chain h2 l1 = StringList.chain h1 l1) := by
  obtain ⟨rs, h, l, ns, hr, hh, _⟩ := (SortedFilled.of_new_sorted h0 max).runPush_sorted_spec ss
  refine ⟨rs, h, l, ns.map Prod.snd, hr, hh.chain_values, ?_, ?_⟩
  · intro t ht
    obtain ⟨r, h1, l1, ns1, hp, hh1, _, hfalse, hdup, _⟩ := hh.pushString_spec t
    have hr0 : r = false := hdup ht
    subst hr0
    obtain ⟨rfl, rfl⟩ := hfalse rfl
    exact ⟨h1, hp, hh1.chain_values⟩
  · intro t
    obtain ⟨r, h1, l1, ns1, hp, hh1, hm1, hfalse, _, htrue⟩ := hh.pushString_spec t
    obtain ⟨r2, h2, l2, ns2, hp2, hh2, _, hfalse2, hdup2, _⟩ := hh1.pushString_spec t
    have hr2 : r2 = false := by
      cases r with
      | true => exact hdup2 (htrue rfl).1
      | false =>
        obtain ⟨rfl, rfl⟩ := hfalse rfl
        cases r2 with
        | false => rfl
        | true =>
          exfalso
          by_cases hf : l1.list_max_size > 0 ∧ l1.list_size ≥ l1.list_max_size
          · have h3 := SortedStringList.sorted_push_full (h := h1) hf t t.length
            have h4 : SortedStringList.pushString h1 l1 t = some (false, h1, l1) := h3
            rw [h4] at hp2
            simp at hp2
          · have hs1 := SortedStringList.push_spec hh hf t t.length
            rw [List.take_length] at hs1
            rcases hs1 with ⟨hmem, _⟩ | ⟨_, _, _, _, _, _, _, hp3, _⟩
            · have := hdup2 hmem
              simp at this
            · have h5 : SortedStringList.pushString h l1 t = some (true, _, _) := hp3
              rw [h5] at hp
              simp at hp
    subst hr2
    obtain ⟨rfl, rfl⟩ := hfalse2 rfl
    exact ⟨r, h1, l2, h2, hp, hp2, by rw [hh2.chain_values, hh1.chain_values]⟩

/-- C4 at the sorted list pushed "b", "a", "c", for the inner value "b". -/
theorem SortedStringList.push_rejects_duplicate_witness :
    ∃ h1, SortedStringList.pushString
        [some ⟨[98], some 2⟩, some ⟨[97], some 0⟩, some ⟨[99], none⟩]
        ⟨some 1, some 2, 3, 0, some 0, 0⟩ [98] =
      some (false, h1, ⟨some 1, some 2, 3, 0, some 0, 0⟩) := by
  obtain ⟨rs, h, l, vs, hr, hc, hdup, _⟩ :=
    SortedStringList.push_rejects_duplicate [] 0 [[98], [97], [99]]
  have he : runPush SortedStringList.pushString [[98], [97], [99]] [] (StringList.new 0) =
      some ([true, true, true], [some ⟨[98], some 2⟩, some ⟨[97], some 0⟩, some ⟨[99], none⟩],
        ⟨some 1, some 2, 3, 0, some 0, 0⟩) := by decide
  rw [he] at hr
  simp only [Option.some.injEq, Prod.mk.injEq] at hr
  obtain ⟨rfl, rfl, rfl⟩ := hr
  have hv : StringList.chain [some ⟨[98], some 2⟩, some ⟨[97], some 0⟩, some ⟨[99], none⟩]
      ⟨some 1, some 2, 3, 0, some 0, 0⟩ = some [[97], [98], [99]] := by decide
  rw [hv] at hc
  simp only [Option.some.injEq] at hc
  subst hc
  obtain ⟨h1, hp, _⟩ := hdup [98] (by decide)
  exact ⟨h1, hp⟩

/-! ## contains -/

theorem StringList.containsLoop_spec (h : Heap) (t : CString) :
    ∀ (fuel : Nat) (p : Option Nat) (vs : List CString),
      chainFrom h fuel p = some vs →
      ∃ tmp, containsLoop h t fuel p = some tmp ∧ (tmp.isSome = true ↔ ∃ v ∈ vs, v = t) := by
  intro fuel
  induction fuel with
  | zero => intro p vs hc; simp [chainFrom] at hc
  | succ k ih =>
    intro p vs hc
    cases p with
    | none =>
      simp only [chainFrom, Option.some.injEq] at hc
      subst hc
      exact ⟨none, rfl, by simp⟩
    | some a =>
      simp only [chainFrom] at hc
      cases hd : h.deref a with
      | none => rw [hd] at hc; simp at hc
      | some n =>
        rw [hd] at hc
        simp only [Option.map_eq_some'] at hc
        obtain ⟨vs1, hc1, rfl⟩ := hc
        by_cases hn : n.ptr = t
        · refine ⟨some a, ?_, by simp [hn]⟩
          simp only [containsLoop, hd, compare, hn, strcmp_self, ne_eq, not_true_eq_false,
            if_false]
        · obtain ⟨tmp, h1, h2⟩ := ih n.next vs1 hc1
          refine ⟨tmp, ?_, ?_⟩
          · have hne : strcmp n.ptr t ≠ 0 := fun e => hn (strcmp_eq_zero.mp e)
            simp only [containsLoop, hd, compare, ne_eq, hne, not_false_eq_true, if_true]
            exact h1
          · rw [h2]
            constructor
            · rintro ⟨v, hv, rfl⟩
              exact ⟨v, List.mem_cons_of_mem _ hv, rfl⟩
            · rintro ⟨v, hv, rfl⟩
              rcases List.mem_cons.mp hv with e | hv1
              · exact absurd e.symm hn
              · exact ⟨v, hv1, rfl⟩

theorem linearScan_eq (t : CString) (vs : List CString) :
    linearScan t vs = decide (t ∈ vs) := by
  induction vs with
  | nil => simp [linearScan]
  | cons v vs ih =>
    by_cases hv : v = t
    · simp [linearScan, hv]
    · have hv1 : ¬ t = v := fun e => hv e.symm
      simp [linearScan, hv, hv1, ih]

theorem SortedStringList.containsWalk_spec {h : Heap} (t : CString)
    (rest : List (Nat × CString)) :
    ∀ (pre : List (Nat × CString)) (c : Nat × CString) (fuel : Nat),
      Linked h (pre ++ c :: rest) → rest.length < fuel →
      (∀ y ∈ pre, strcmp y.2 t < 0) →
      ∃ pre1 c1 rest1, pre ++ c :: rest = pre1 ++ c1 :: rest1 ∧
        SortedStringList.containsWalk h t fuel c.1 (strcmp c.2 t) = some (strcmp c1.2 t) ∧
        (∀ y ∈ pre1, strcmp y.2 t < 0) ∧ (rest1 = [] ∨ ¬ strcmp c1.2 t < 0) := by
  induction rest with
  | nil =>
    intro pre c fuel hl hf hpre
    cases fuel with
    | zero => omega
    | succ k =>
      refine ⟨pre, c, [], rfl, ?_, hpre, Or.inl rfl⟩
      have hd := hl.deref_mid
      simp only [SortedStringList.containsWalk, hd, headPtr, List.head?_nil, Option.map_none']
  | cons d rest2 ih =>
    intro pre c fuel hl hf hpre
    cases fuel with
    | zero => omega
    | succ k =>
      have hd := hl.deref_mid
      by_cases hres : strcmp c.2 t < 0
      · have hl2 : Linked h ((pre ++ [c]) ++ d :: rest2) := by simpa using hl
        have hdd := hl2.deref_mid
        obtain ⟨pre1, c1, rest1, he, hw, hp1, hr1⟩ := ih (pre ++ [c]) d k hl2
          (by simpa using hf) (by
            intro y hy
            rcases List.mem_append.mp hy with hy1 | hy1
            · exact hpre y hy1
            · rw [List.mem_singleton.mp hy1]; exact hres)
        refine ⟨pre1, c1, rest1, by rw [← he]; simp, ?_, hp1, hr1⟩
        simp only [SortedStringList.containsWalk, hd, headPtr_cons, hres, if_true, hdd, StringList.compare]
        exact hw
      · refine ⟨pre, c, d :: rest2, rfl, ?_, hpre, Or.inr hres⟩
        simp only [SortedStringList.containsWalk, hd, headPtr_cons, hres, if_false]

theorem SortedStringList.contains_spec {h : Heap} {l : StringList}
    {ns : List (Nat × CString)} (hh : SortedFilled h l ns) (t : CString) :
    SortedStringList.contains h l t = some (decide (t ∈ ns.map Prod.snd), h, l) := by
  unfold SortedStringList.contains
  cases ns with
  | nil =>
    have hs : l.list_size = 0 := hh.size_eq
    rw [if_pos hs]
    simp
  | cons b tl =>
    have hs : ¬ l.list_size = 0 := by
      rw [hh.size_eq]
      simp only [List.length_cons]
      push_cast
      omega
    rw [if_neg hs]
    have hb : l.list_begin = some b.1 := hh.holds.head_eq
    have hdb : h.deref b.1 = some { ptr := b.2, next := headPtr tl } := hh.holds.linked.1
    have hsorted := hh.sorted
    obtain ⟨pre0, e, hns⟩ : ∃ pre0 e, b :: tl = pre0 ++ [e] := by
      rcases eq_nil_or_snoc (b :: tl) with h0 | h0
      · simp at h0
      · exact h0
    have hl0 : Linked h (pre0 ++ [e]) := hns ▸ hh.holds.linked
    have hde : h.deref e.1 = some { ptr := e.2, next := none } := hl0.deref_mid
    have he : l.list_end = some e.1 := by
      rw [hh.holds.last_eq, hns, lastPtr_append_singleton]
    by_cases c1 : strcmp b.2 t > 0
    · have hnot : t ∉ (b :: tl).map Prod.snd := by
        have ht : strcmp t b.2 < 0 := strcmp_pos_iff.mp c1
        simp only [List.map_cons, List.pairwise_cons] at hsorted
        have := @not_mem_of_between [] (b :: tl) t (by simp) (by
          intro y hy
          rcases List.mem_cons.mp hy with rfl | hy1
          · exact ht
          · exact strcmp_trans ht (hsorted.1 y.2 (List.mem_map_of_mem _ hy1)))
        simpa using this
      simp only [hb, hdb, StringList.compare, c1, if_true, hnot, decide_False]
    · by_cases c2 : strcmp e.2 t < 0
      · have hnot : t ∉ (b :: tl).map Prod.snd := by
          rw [hns] at hsorted ⊢
          rw [List.map_append, List.pairwise_append] at hsorted
          have := @not_mem_of_between (pre0 ++ [e]) [] t (by
            intro y hy
            rcases List.mem_append.mp hy with hy1 | hy1
            · exact strcmp_trans (hsorted.2.2 y.2 (List.mem_map_of_mem _ hy1) e.2 (by simp)) c2
            · rw [List.mem_singleton.mp hy1]; exact c2) (by simp)
          simpa using this
        simp only [hb, hdb, StringList.compare, c1, if_false, he, hde, c2, if_true, hnot, decide_False]
      · have hfuel : tl.length < h.fuel := by
          have := hh.holds.linked.length_le hh.holds.nodup
          simp only [Heap.fuel, List.length_cons] at this ⊢
          omega
        obtain ⟨pre1, c, rest1, hsplit, hw, hp1, hr1⟩ :=
          SortedStringList.containsWalk_spec t tl [] b _ hh.holds.linked hfuel (by simp)
        simp only [List.nil_append] at hsplit hw
        simp only [hb, hdb, StringList.compare, c1, if_false, he, hde, c2, hw]
        by_cases c3 : strcmp c.2 t = 0
        · have hc : c ∈ b :: tl := by rw [hsplit]; simp
          have hmem : t ∈ (b :: tl).map Prod.snd :=
            List.mem_map.mpr ⟨c, hc, strcmp_eq_zero.mp c3⟩
          simp only [c3, hmem, decide_True]
        · have hres : ¬ strcmp c.2 t < 0 := by
            rcases hr1 with hr | hr
            · subst hr
              have h3 : pre1 ++ [c] = pre0 ++ [e] := by rw [← hsplit, ← hns]
              have h4 := (List.append_inj' h3 rfl).2
              simp only [List.cons.injEq, and_true] at h4
              rw [h4]
              exact c2
            · exact hr
          have hnot : t ∉ (b :: tl).map Prod.snd := by
            have ht : strcmp t c.2 < 0 := by
              apply strcmp_pos_iff.mp
              omega
            rw [hsplit] at hsorted ⊢
            rw [List.map_append, List.pairwise_append] at hsorted
            have h5 := hsorted.2.1
            simp only [List.map_cons, List.pairwise_cons] at h5
            exact not_mem_of_between hp1 (by
              intro y hy
              rcases List.mem_cons.mp hy with rfl | hy1
              · exact ht
              · exact strcmp_trans ht (h5.1 y.2 (List.mem_map_of_mem _ hy1)))
          simp only [c3, hnot, decide_False]

/-! ## C6 and C7 -/

/-- C6: on a sorted list built from empty by pushes, `SortedStringList::contains(t)` returns
what a full linear scan of the chain for a value equal to `t` returns, and changes nothing. -/
theorem SortedStringList.contains_agrees_with_linear_scan (h0 : Heap) (max : Int)
    (ss : List CString) (t : CString) :
    ∃ rs h l vs, runPush SortedStringList.pushString ss h0 (StringList.new max) =
        some (rs, h, l) ∧ StringList.chain h l = some vs ∧
      SortedStringList.contains h l t = some (linearScan t vs, h, l) := by
  obtain ⟨rs, h, l, ns, hr, hh, _⟩ := (SortedFilled.of_new_sorted h0 max).runPush_sorted_spec ss
  exact ⟨rs, h, l, ns.map Prod.snd, hr, hh.chain_values, by
    rw [linearScan_eq]; exact SortedStringList.contains_spec hh t⟩

/-- C7: in every state whose chain from `list_begin` ends at `NULL` with values `vs`,
`StringList::contains(t)` returns true exactly when some value of the chain equals `t`, and
leaves the heap and the list object (values, size, cursor) as they were. -/
theorem StringList.contains_iff_some_value_equal (h : Heap) (l : StringList)
    (vs : List CString) (t : CString) (hc : chain h l = some vs) :
    ∃ r, contains h l t = some (r, h, l) ∧ (r = true ↔ ∃ v ∈ vs, v = t) := by
  obtain ⟨tmp, h1, h2⟩ := containsLoop_spec h t h.fuel l.list_begin vs hc
  exact ⟨tmp.isSome, by simp only [contains, h1], h2⟩

/-- C7 at the list holding "a", "b" with the cursor exhausted, for the text "b". -/
theorem StringList.contains_iff_some_value_equal_witness :
    ∃ r, contains [some ⟨[97], some 1⟩, some ⟨[98], none⟩] ⟨some 0, some 1, 2, 0, none, 2⟩ [98] =
        some (r, [some ⟨[97], some 1⟩, some ⟨[98], none⟩], ⟨some 0, some 1, 2, 0, none, 2⟩) ∧
      (r = true ↔ ∃ v ∈ [[97], [98]], v = ([98] : CString)) :=
  StringList.contains_iff_some_value_equal [some ⟨[97], some 1⟩, some ⟨[98], none⟩]
    ⟨some 0, some 1, 2, 0, none, 2⟩ [[97], [98]] [98] (by decide)

/-! ## begin and iterate -/

theorem runIterate_succ (h : Heap) (k : Nat) (l : StringList) :
    runIterate h (k + 1) l =
      match StringList.iterate h l with
      | none => none
      | some (v, l1) =>
        match runIterate h k l1 with
        | none => none
        | some (vs, l2) => some (v :: vs, l2) := rfl

theorem Linked.runIterate_spec {h : Heap} {ns : List (Nat × CString)} (hl : Linked h ns)
    (k : Nat) :
    ∀ (l : StringList) (p : Nat), l.list_h = headPtr (ns.drop p) →
      ∃ l1, runIterate h k l =
          some (((ns.map Prod.snd).drop p).take k ++ List.replicate (k - (ns.length - p)) [],
            l1) ∧
        l1.list_h = headPtr (ns.drop (p + k)) := by
  induction k with
  | zero => intro l p hc; exact ⟨l, by simp [runIterate], hc⟩
  | succ k ih =>
    intro l p hc
    by_cases hp : p < ns.length
    · obtain ⟨l1, h1, h2⟩ := ih
        { l with list_h := headPtr (ns.drop (p + 1)), list_pos := l.list_pos + 1 } (p + 1) rfl
      refine ⟨l1, ?_, by rw [h2]; congr 2; omega⟩
      rw [runIterate_succ, iterate_at hl hc hp]
      simp only [h1]
      have hd : (ns.map Prod.snd).drop p = ns[p].2 :: (ns.map Prod.snd).drop (p + 1) := by
        rw [List.drop_eq_getElem_cons (by simpa using hp)]
        simp
      have hk : k + 1 - (ns.length - p) = k - (ns.length - (p + 1)) := by omega
      rw [hd, hk]
      simp
    · have hnone : l.list_h = none := by rw [hc]; exact headPtr_drop_none (by omega)
      obtain ⟨l1, h1, h2⟩ := ih l p hc
      refine ⟨l1, ?_, ?_⟩
      · rw [runIterate_succ, iterate_done hnone]
        simp only [h1]
        have hd : (ns.map Prod.snd).drop p = [] := by
          apply List.drop_eq_nil_of_le
          simp only [List.length_map]
          omega
        have hz : ns.length - p = 0 := by omega
        rw [hd, hz]
        simp [List.replicate_succ]
      · rw [h2, headPtr_drop_none (by omega), headPtr_drop_none (by omega)]

/-! ## C10 -/

/-- C10: on a list built by pushes, whatever the cursor was set to before, after `begin()`
any number `k` of `iterate()` calls returns the first `k` values of the chain in chain order,
followed by empty strings once the `n` values are used up; `available()` is true after fewer
than `n` calls and false after `n` calls or more. -/
theorem StringList.begin_iterate_visits_chain (h0 : Heap) (max : Int) (ss : List CString)
    (c : Option Nat) (p : Int) :
    ∃ rs h l vs, runPush pushString ss h0 (new max) = some (rs, h, l) ∧
      chain h l = some vs ∧
      ∀ k, ∃ l1, runIterate h k (begin { l with list_h := c, list_pos := p }) =
          some (vs.take k ++ List.replicate (k - vs.length) [], l1) ∧
        available l1 = decide (k < vs.length) := by
  obtain ⟨rs, h, l, ns, hr, hf, _⟩ := (Filled.of_new h0 max).runPush_spec ss
  refine ⟨rs, h, l, ns.map Prod.snd, hr, hf.holds.chain_eq, ?_⟩
  intro k
  obtain ⟨l1, h1, h2⟩ := hf.holds.linked.runIterate_spec k
    (begin { l with list_h := c, list_pos := p }) 0 (by
      show l.list_begin = _
      rw [hf.holds.head_eq]; rfl)
  refine ⟨l1, by simpa using h1, ?_⟩
  rw [available, h2]
  simp only [Nat.zero_add, List.length_map]
  by_cases hk : k < ns.length
  · rw [(hf.holds.linked.deref_drop hk).1]
    simp [hk]
  · rw [headPtr_drop_none (by omega)]
    simp [hk]

/-! ## Evaluations of the code where it departs from the specification -/

/-- C5: after `push("b")` then `push("a")` on an empty sorted list the chain is "a", "b",
but `get(0)` returns "b" and the following `get(1)` returns the empty string: the branch that
inserts at the start leaves the cursor on the old head. -/
theorem SortedStringList.get_after_insert_at_start :
    runPush SortedStringList.pushString [[98], [97]] [] (StringList.new 0) =
        some ([true, true], [some ⟨[98], none⟩, some ⟨[97], some 0⟩],
          ⟨some 1, some 0, 2, 0, some 0, 0⟩) ∧
      StringList.chain [some ⟨[98], none⟩, some ⟨[97], some 0⟩]
        ⟨some 1, some 0, 2, 0, some 0, 0⟩ = some [[97], [98]] ∧
      StringList.get [some ⟨[98], none⟩, some ⟨[97], some 0⟩]
        ⟨some 1, some 0, 2, 0, some 0, 0⟩ 0 = some ([98], ⟨some 1, some 0, 2, 0, some 0, 0⟩) ∧
      StringList.get [some ⟨[98], none⟩, some ⟨[97], some 0⟩]
        ⟨some 1, some 0, 2, 0, some 0, 0⟩ 1 = some ([], ⟨some 1, some 0, 2, 0, none, 1⟩) := by
  decide

/-- C8: `parse("a,,b,c", ",")` on an empty unbounded list yields the three entries "a", ",b",
"c": after a delimiter that follows a delimiter the segment start is not advanced, so the
second entry keeps the delimiter. -/
theorem StringList.parse_consecutive_delimiters :
    ∃ h l, parse [] (new 0) [97, 44, 44, 98, 44, 99] [44] = some (h, l) ∧
      chain h l = some [[97], [44, 98], [99]] ∧ size l = 3 :=
  ⟨_, _, rfl, by decide, by decide⟩

/-- C9: after `push("a")`, `push("b")` two `popFirst()` calls return "a" then "b" and leave
no node and no cursor, but `size()` still returns 2: `popFirst` never decrements
`list_size`. -/
theorem StringList.popFirst_keeps_size :
    ∃ h l h1 l1, runPush pushString [[97], [98]] [] (new 0) = some ([true, true], h, l) ∧
      runPop 2 h l = some ([[97], [98]], h1, l1) ∧
      chain h1 l1 = some [] ∧ available l1 = false ∧ size l1 = 2 :=
  ⟨_, _, _, _, rfl, rfl, by decide, by decide, by decide⟩

/-! ## popFirst -/

theorem Holds.popFirst_spec {h : Heap} {l : StringList} {x : Nat × CString}
    {ns : List (Nat × CString)} (hh : Holds h l (x :: ns)) :
    popFirst h l = some (x.2, h.free x.1,
        { l with list_begin := headPtr ns, list_end := if ns = [] then none else l.list_end,
                 list_h := headPtr ns, list_pos := 0 }) ∧
      Holds (h.free x.1)
        { l with list_begin := headPtr ns, list_end := if ns = [] then none else l.list_end,
                 list_h := headPtr ns, list_pos := 0 } ns := by
  have hb : l.list_begin = some x.1 := hh.head_eq
  have hd : h.deref x.1 = some { ptr := x.2, next := headPtr ns } := hh.linked.1
  have hnd := hh.nodup
  simp only [List.map_cons, List.nodup_cons] at hnd
  constructor
  · unfold popFirst
    cases ns with
    | nil => simp only [hb, hd, headPtr, List.head?_nil, Option.map_none', if_true]
    | cons y ys =>
      simp only [hb, hd, headPtr_cons]
      rw [if_neg (by simp)]
  · refine ⟨?_, hnd.2, rfl, ?_⟩
    · apply hh.linked.2.frame
      intro y hy
      have hne : x.1 ≠ y.1 := fun e => hnd.1 (e ▸ List.mem_map_of_mem _ hy)
      exact deref_set_ne _ _ hne
    · show (if ns = [] then none else l.list_end) = _
      cases ns with
      | nil => rfl
      | cons y ys => rw [if_neg (by simp), hh.last_eq, lastPtr_cons_cons]

/-! ## C16 -/

/-- C16: on a non-empty list built by pushes, wherever the cursor was left before (any
`list_h`, any `list_pos`), `popFirst()` returns the value of the head and leaves the old chain
without its first value, with head and tail unset when none remains; the cursor is reset to
the new head at position 0, so the next `iterate()` returns the new first value, or the empty
string when none remains. -/
theorem StringList.popFirst_removes_head (h0 : Heap) (max : Int) (ss : List CString)
    (c : Option Nat) (p : Int) :
    ∃ rs h l vs, runPush pushString ss h0 (new max) = some (rs, h, l) ∧
      chain h l = some vs ∧
      ∀ v rest, vs = v :: rest →
        ∃ h1 l1 l2, popFirst h { l with list_h := c, list_pos := p } = some (v, h1, l1) ∧
        chain h1 l1 = some rest ∧ l1.list_h = l1.list_begin ∧ l1.list_pos = 0 ∧
        (rest = [] → l1.list_begin = none ∧ l1.list_end = none) ∧
        iterate h1 l1 = some (rest.headD [], l2) := by
  obtain ⟨rs, h, l, ns, hr, hf, _⟩ := (Filled.of_new h0 max).runPush_spec ss
  refine ⟨rs, h, l, ns.map Prod.snd, hr, hf.holds.chain_eq, ?_⟩
  intro v rest hv
  cases ns with
  | nil => simp at hv
  | cons x xs =>
    simp only [List.map_cons, List.cons.injEq] at hv
    obtain ⟨rfl, rfl⟩ := hv
    obtain ⟨hp, hh1⟩ := (hf.holds.cursor_moved c p).popFirst_spec
    have hit : ∃ l2, iterate (h.free x.1)
        { l with list_begin := headPtr xs, list_end := if xs = [] then none else l.list_end,
                 list_h := headPtr xs, list_pos := 0 } =
        some ((xs.map Prod.snd).headD [], l2) := by
      cases xs with
      | nil => exact ⟨_, iterate_done rfl⟩
      | cons y ys =>
        have := @iterate_at (h.free x.1)
          { l with list_begin := headPtr (y :: ys),
                   list_end := if y :: ys = [] then none else l.list_end,
                   list_h := headPtr (y :: ys), list_pos := 0 }
          (y :: ys) hh1.linked 0 rfl (by simp)
        exact ⟨_, by simpa using this⟩
    obtain ⟨l2, hl2⟩ := hit
    refine ⟨_, _, l2, hp, hh1.chain_eq, rfl, rfl, ?_, hl2⟩
    intro he
    have hx : xs = [] := by simpa using he
    subst hx
    exact ⟨rfl, rfl⟩

/-- C16 at the list pushed "a", "b", "c" whose cursor two `iterate()` calls have moved to the
node "c" at position 2. -/
theorem StringList.popFirst_removes_head_witness :
    ∃ h1 l1 l2,
      popFirst [some ⟨[97], some 1⟩, some ⟨[98], some 2⟩, some ⟨[99], none⟩]
        ⟨some 0, some 2, 3, 0, some 2, 2⟩ = some ([97], h1, l1) ∧
      chain h1 l1 = some [[98], [99]] ∧ l1.list_h = l1.list_begin ∧ l1.list_pos = 0 ∧
      iterate h1 l1 = some ([98], l2) := by
  obtain ⟨rs, h, l, vs, hr, hc, hpop⟩ :=
    StringList.popFirst_removes_head [] 0 [[97], [98], [99]] (some 2) 2
  have he : runPush pushString [[97], [98], [99]] [] (new 0) =
      some ([true, true, true],
        [some ⟨[97], some 1⟩, some ⟨[98], some 2⟩, some ⟨[99], none⟩],
        ⟨some 0, some 2, 3, 0, some 0, 0⟩) := by decide
  rw [he] at hr
  simp only [Option.some.injEq, Prod.mk.injEq] at hr
  obtain ⟨rfl, rfl, rfl⟩ := hr
  have hv : chain [some ⟨[97], some 1⟩, some ⟨[98], some 2⟩, some ⟨[99], none⟩]
      ⟨some 0, some 2, 3, 0, some 0, 0⟩ = some [[97], [98], [99]] := by decide
  rw [hv] at hc
  simp only [Option.some.injEq] at hc
  subst hc
  obtain ⟨h1, l1, l2, hp, hc1, hcur, hpos, _, hi⟩ := hpop [97] [[98], [99]] rfl
  exact ⟨h1, l1, l2, hp, hc1, hcur, hpos, hi⟩

/-! ## More evaluations of the code where it departs from the specification -/

/-- C12: with A = "1", "2", "3" built by pushes and B new with capacity 2, `B.moveFrom(A)`
leaves `B.size() == 2` and A empty, but B's tail (the node "2") still has the node "3" as
successor, so the values reachable from B's head, those visited by `begin()` and three
`iterate()` calls, are "1", "2", "3". -/
theorem StringList.moveFrom_bounded_keeps_link :
    ∃ h a h1 b1 a1 l2,
      runPush pushString [[49], [50], [51]] [] (new 0) = some ([true, true, true], h, a) ∧
      moveFrom h (new 2) a = some (h1, b1, a1) ∧ size b1 = 2 ∧ b1.list_end = some 1 ∧
      h1.deref 1 = some ⟨[50], some 2⟩ ∧ chain h1 b1 = some [[49], [50], [51]] ∧
      runIterate h1 3 (begin b1) = some ([[49], [50], [51]], l2) ∧
      a1 = ⟨none, none, 0, 0, none, 0⟩ :=
  ⟨_, _, _, _, _, _, rfl, rfl, by decide, by decide, by decide, by decide, rfl, by decide⟩

/-- C13: after `push("a")`, `iterate()`, `push("b")` the list holds "a", "b", but `get(1)`
returns the empty string: `iterate()` left the cursor at `NULL` with position 1 and `push`
does not put it on the node it appends. -/
theorem StringList.get_after_exhausted_cursor :
    ∃ h1 l1 l2 h3 l3 l4, pushString [] (new 0) [97] = some (true, h1, l1) ∧
      iterate h1 l1 = some ([97], l2) ∧ pushString h1 l2 [98] = some (true, h3, l3) ∧
      chain h3 l3 = some [[97], [98]] ∧ size l3 = 2 ∧ get h3 l3 1 = some ([], l4) :=
  ⟨_, _, _, _, _, _, rfl, rfl, rfl, by decide, by decide, rfl⟩

/-- C14: after `push("a")` and `popFirst()` no node is reachable from the head, but `size()`
returns 1. -/
theorem StringList.size_after_popFirst :
    ∃ h1 l1 h2 l2, pushString [] (new 0) [97] = some (true, h1, l1) ∧
      popFirst h1 l1 = some ([97], h2, l2) ∧ l2.list_begin = none ∧
      chain h2 l2 = some [] ∧ size l2 = 1 :=
  ⟨_, _, _, _, rfl, rfl, by decide, by decide, by decide⟩

/-- C19: on a sorted list, after `push("a")` and `popFirst()` the head and tail are `NULL`
while `list_size` is 1, so `contains("a")` passes the emptiness check and reads the head
value through `NULL`: the call has no defined result. -/
theorem SortedStringList.contains_after_popFirst :
    ∃ h1 l1 h2 l2, SortedStringList.pushString [] (StringList.new 0) [97] = some (true, h1, l1) ∧
      popFirst h1 l1 = some ([97], h2, l2) ∧ l2.list_begin = none ∧ l2.list_end = none ∧
      size l2 = 1 ∧ SortedStringList.contains h2 l2 [97] = none :=
  ⟨_, _, _, _, rfl, rfl, by decide, by decide, by decide, by decide⟩

/-! ## parse -/

theorem StringList.push_eq_pushString (h : Heap) (l : StringList) (str : CString) (len : Nat) :
    push h l str len = pushString h l (stringCopy str len) := by
  simp only [pushString, push, stringCopy, List.take_length]

theorem StringList.parseLoop_eq_runPush (input delimiter : CString) (n : Nat) :
    ∀ (i j : Nat) (h : Heap) (l : StringList),
      parseLoop input delimiter n i j h l =
        match runPush pushString (parseSegments input delimiter n i j) h l with
        | none => none
        | some (_, h1, l1) => some (h1, l1) := by
  induction n with
  | zero => intro i j h l; rfl
  | succ n ih =>
    intro i j h l
    by_cases hc : (i : Int) - (j : Int) > 0 ∧
        (i = input.length ∨ substring input i (i + delimiter.length) = delimiter)
    · simp only [parseLoop, parseSegments, if_pos hc, runPush_cons, push_eq_pushString]
      cases pushString h l (stringCopy (input.drop j) (i - j)) with
      | none => rfl
      | some x =>
        obtain ⟨r, h1, l1⟩ := x
        simp only [ih]
        cases runPush pushString
          (parseSegments input delimiter n (i + 1) (i + delimiter.length)) h1 l1 with
        | none => rfl
        | some y => rfl
    · simp only [parseLoop, parseSegments, if_neg hc]
      exact ih _ _ _ _

/-- Pushes on a list filled by pushes whose bound is `k > 0`: the first `k` texts are
accepted, the others refused. -/
theorem Filled.runPush_bounded {h : Heap} {l : StringList} (hh : Filled h l [])
    (k : Nat) (hk : 0 < k) (hmax : l.list_max_size = (k : Int)) (ss : List CString) :
    ∃ rs h1 l1 ns1, Deauther.runPush pushString ss h l = some (rs, h1, l1) ∧
      Filled h1 l1 ns1 ∧ ns1.map Prod.snd = ss.take k := by
  obtain ⟨h1, l1, ns1, hr, hf, hv, hm⟩ := hh.runPush_room (ss.take k)
    (Or.inr (by rw [hmax]; simp))
  have hv1 : ns1.map Prod.snd = ss.take k := by simpa using hv
  have hsplit : ss = ss.take k ++ ss.drop k := (List.take_append_drop k ss).symm
  by_cases hlen : ss.length ≤ k
  · have hd : ss.drop k = [] := List.drop_eq_nil_of_le hlen
    have ht : ss.take k = ss := List.take_of_length_le hlen
    rw [ht] at hr
    exact ⟨_, h1, l1, ns1, hr, hf, hv1⟩
  · have hn : ns1.length = k := by
      have := congrArg List.length hv1
      rw [List.length_map, List.length_take] at this
      omega
    have hfull : l1.list_max_size > 0 ∧ l1.list_size ≥ l1.list_max_size := by
      rw [hm, hmax, hf.size_eq, hn]
      omega
    have hrun : Deauther.runPush pushString (ss.take k ++ ss.drop k) h l =
        some (List.replicate (ss.take k).length true ++
          List.replicate (ss.drop k).length false, h1, l1) := by
      rw [runPush_append, hr]
      simp only [runPush_full hfull]
    rw [← hsplit] at hrun
    exact ⟨_, h1, l1, ns1, hrun, hf, hv1⟩

theorem take_min_length {α : Type} (k : Nat) (xs : List α) :
    xs.take (min k xs.length) = xs.take k := by
  by_cases hk : k ≤ xs.length
  · rw [Nat.min_eq_left hk]
  · rw [Nat.min_eq_right (by omega), List.take_length, List.take_of_length_le (by omega)]

/-! ## C18 -/

/-- C18: for every input, every delimiter and every bound `k > 0`, `parse` on an empty list
with bound `k` yields the first `min(k, n)` of the `n` entries that the same `parse` yields on
an empty unbounded list, in the same order. -/
theorem StringList.parse_bounded_takes_first (h0 : Heap) (input delimiter : CString)
    (k : Nat) (hk : 0 < k) :
    ∃ hu lu vs hb lb, parse h0 (new 0) input delimiter = some (hu, lu) ∧
      chain hu lu = some vs ∧
      parse h0 (new (k : Int)) input delimiter = some (hb, lb) ∧
      chain hb lb = some (vs.take (min k vs.length)) ∧
      size lb = ((min k vs.length : Nat) : Int) := by
  obtain ⟨hu, lu, nu, hru, hfu, hvu, _⟩ := (Filled.of_new h0 0).runPush_room
    (parseSegments input delimiter (input.length + 1) 0 0) (Or.inl (by simp [new]))
  obtain ⟨rs, hb, lb, nb, hrb, hfb, hvb⟩ := (Filled.of_new h0 (k : Int)).runPush_bounded k hk rfl
    (parseSegments input delimiter (input.length + 1) 0 0)
  have hvu1 : nu.map Prod.snd = parseSegments input delimiter (input.length + 1) 0 0 := by
    simpa using hvu
  refine ⟨hu, lu, nu.map Prod.snd, hb, lb, ?_, hfu.holds.chain_eq, ?_, ?_, ?_⟩
  · simp only [parse, parseLoop_eq_runPush, hru]
  · simp only [parse, parseLoop_eq_runPush, hrb]
  · rw [hfb.holds.chain_eq, hvb, hvu1, take_min_length]
  · rw [size, hfb.size_eq]
    have := congrArg List.length hvb
    rw [List.length_map, List.length_take] at this
    rw [this, hvu1]

/-- C18 at the input "a,b,c", the delimiter "," and the bound 2. -/
theorem StringList.parse_bounded_takes_first_witness :
    ∃ hu lu hb lb, parse [] (new 0) [97, 44, 98, 44, 99] [44] = some (hu, lu) ∧
      chain hu lu = some [[97], [98], [99]] ∧
      parse [] (new 2) [97, 44, 98, 44, 99] [44] = some (hb, lb) ∧
      chain hb lb = some [[97], [98]] := by
  obtain ⟨hu, lu, vs, hb, lb, h1, h2, h3, h4, _⟩ :=
    StringList.parse_bounded_takes_first [] [97, 44, 98, 44, 99] [44] 2 (by decide)
  have he : parse [] (new 0) [97, 44, 98, 44, 99] [44] =
      some ([some ⟨[97], some 1⟩, some ⟨[98], some 2⟩, some ⟨[99], none⟩],
        ⟨some 0, some 2, 3, 0, some 0, 0⟩) := by decide
  rw [he] at h1
  simp only [Option.some.injEq, Prod.mk.injEq] at h1
  obtain ⟨rfl, rfl⟩ := h1
  have hv : chain [some ⟨[97], some 1⟩, some ⟨[98], some 2⟩, some ⟨[99], none⟩]
      ⟨some 0, some 2, 3, 0, some 0, 0⟩ = some [[97], [98], [99]] := by decide
  rw [hv] at h2
  simp only [Option.some.injEq] at h2
  subst h2
  exact ⟨_, _, hb, lb, he, hv, h3, h4⟩

/-! ## The capacity bound -/

theorem StringList.push_size {h : Heap} {l : StringList} {str : CString} {len : Nat}
    {r : Bool} {h1 : Heap} {l1 : StringList} (hp : push h l str len = some (r, h1, l1)) :
    l1.list_max_size = l.list_max_size ∧
      (0 < l.list_max_size → l.list_size ≤ l.list_max_size →
        l1.list_size ≤ l1.list_max_size) := by
  unfold push at hp
  split at hp
  · simp only [Option.some.injEq, Prod.mk.injEq] at hp
    obtain ⟨_, _, rfl⟩ := hp
    exact ⟨rfl, fun _ hs => hs⟩
  · rename_i hf
    have hlt : 0 < l.list_max_size → l.list_size + 1 ≤ l.list_max_size := by
      intro hm
      by_contra hc
      exact hf ⟨hm, by omega⟩
    simp only [Heap.malloc] at hp
    split at hp
    · simp only [Option.some.injEq, Prod.mk.injEq] at hp
      obtain ⟨_, _, rfl⟩ := hp
      exact ⟨rfl, fun hm _ => hlt hm⟩
    · split at hp
      · simp at hp
      · split at hp
        · simp at hp
        · simp only [Option.some.injEq, Prod.mk.injEq] at hp
          obtain ⟨_, _, rfl⟩ := hp
          exact ⟨rfl, fun hm _ => hlt hm⟩

theorem SortedStringList.sorted_push_size {h : Heap} {l : StringList} {str : CString}
    {len : Nat} {r : Bool} {h1 : Heap} {l1 : StringList}
    (hp : SortedStringList.push h l str len = some (r, h1, l1)) :
    l1.list_max_size = l.list_max_size ∧
      (0 < l.list_max_size → l.list_size ≤ l.list_max_size →
        l1.list_size ≤ l1.list_max_size) := by
  unfold SortedStringList.push at hp
  split at hp
  · simp only [Option.some.injEq, Prod.mk.injEq] at hp
    obtain ⟨_, _, rfl⟩ := hp
    exact ⟨rfl, fun _ hs => hs⟩
  · rename_i hf
    have hlt : 0 < l.list_max_size → l.list_size + 1 ≤ l.list_max_size := by
      intro hm
      by_contra hc
      exact hf ⟨hm, by omega⟩
    simp only [Heap.malloc] at hp
    repeat' split at hp
    all_goals first
      | (simp at hp; done)
      | (simp only [Option.some.injEq, Prod.mk.injEq] at hp
         obtain ⟨_, _, rfl⟩ := hp
         first
           | exact ⟨rfl, fun hm _ => hlt hm⟩
           | exact ⟨rfl, fun _ hs => hs⟩)

theorem StringList.parseLoop_size (input delimiter : CString) (n : Nat) :
    ∀ (i j : Nat) (h : Heap) (l : StringList) (h1 : Heap) (l1 : StringList),
      parseLoop input delimiter n i j h l = some (h1, l1) →
      l1.list_max_size = l.list_max_size ∧
        (0 < l.list_max_size → l.list_size ≤ l.list_max_size →
          l1.list_size ≤ l1.list_max_size) := by
  induction n with
  | zero =>
    intro i j h l h1 l1 hp
    simp only [parseLoop, Option.some.injEq, Prod.mk.injEq] at hp
    obtain ⟨_, rfl⟩ := hp
    exact ⟨rfl, fun _ hs => hs⟩
  | succ n ih =>
    intro i j h l h1 l1 hp
    unfold parseLoop at hp
    split at hp
    · split at hp
      · simp at hp
      · rename_i r h2 l2 hpush
        obtain ⟨hm2, hs2⟩ := push_size hpush
        obtain ⟨hm1, hs1⟩ := ih _ _ _ _ _ _ hp
        exact ⟨hm1.trans hm2, fun hm hs => hs1 (hm2 ▸ hm) (hs2 hm hs)⟩
    · exact ih _ _ _ _ _ _ hp

theorem SortedStringList.sorted_parseLoop_size (input delimiter : CString) (n : Nat) :
    ∀ (i j : Nat) (h : Heap) (l : StringList) (h1 : Heap) (l1 : StringList),
      SortedStringList.parseLoop input delimiter n i j h l = some (h1, l1) →
      l1.list_max_size = l.list_max_size ∧
        (0 < l.list_max_size → l.list_size ≤ l.list_max_size →
          l1.list_size ≤ l1.list_max_size) := by
  induction n with
  | zero =>
    intro i j h l h1 l1 hp
    simp only [SortedStringList.parseLoop, Option.some.injEq, Prod.mk.injEq] at hp
    obtain ⟨_, rfl⟩ := hp
    exact ⟨rfl, fun _ hs => hs⟩
  | succ n ih =>
    intro i j h l h1 l1 hp
    unfold SortedStringList.parseLoop at hp
    split at hp
    · split at hp
      · simp at hp
      · rename_i r h2 l2 hpush
        obtain ⟨hm2, hs2⟩ := SortedStringList.sorted_push_size hpush
        obtain ⟨hm1, hs1⟩ := ih _ _ _ _ _ _ hp
        exact ⟨hm1.trans hm2, fun hm hs => hs1 (hm2 ▸ hm) (hs2 hm hs)⟩
    · exact ih _ _ _ _ _ _ hp

theorem StringList.popFirst_size {h : Heap} {l : StringList} {v : CString} {h1 : Heap}
    {l1 : StringList} (hp : popFirst h l = some (v, h1, l1)) :
    l1.list_max_size = l.list_max_size ∧ l1.list_size = l.list_size := by
  unfold popFirst at hp
  repeat' split at hp
  all_goals first
    | (simp at hp; done)
    | (simp only [Option.some.injEq, Prod.mk.injEq] at hp
       obtain ⟨_, _, rfl⟩ := hp
       exact ⟨rfl, rfl⟩)

theorem StringList.clear_size {h : Heap} {l : StringList} {h1 : Heap} {l1 : StringList}
    (hp : clear h l = some (h1, l1)) :
    l1.list_max_size = l.list_max_size ∧ l1.list_size = 0 := by
  unfold clear at hp
  split at hp
  · simp at hp
  · simp only [Option.some.injEq, Prod.mk.injEq] at hp
    obtain ⟨_, rfl⟩ := hp
    exact ⟨rfl, rfl⟩

theorem StringList.moveLoop_size (fuel : Nat) :
    ∀ (h : Heap) (l : StringList) (ih : Option Nat) (h1 : Heap) (l1 : StringList),
      moveLoop fuel h l ih = some (h1, l1) →
      l1.list_max_size = l.list_max_size ∧
        (0 < l.list_max_size → l.list_size ≤ l.list_max_size →
          l1.list_size ≤ l1.list_max_size) := by
  induction fuel with
  | zero => intro h l ih h1 l1 hp; simp [moveLoop] at hp
  | succ k hind =>
    intro h l ih h1 l1 hp
    cases ih with
    | none =>
      simp only [moveLoop, Option.some.injEq, Prod.mk.injEq] at hp
      obtain ⟨_, rfl⟩ := hp
      exact ⟨rfl, fun _ hs => hs⟩
    | some a =>
      unfold moveLoop at hp
      split at hp
      · simp only [Option.some.injEq, Prod.mk.injEq] at hp
        obtain ⟨_, rfl⟩ := hp
        exact ⟨rfl, fun _ hs => hs⟩
      · rename_i hf
        have hlt : 0 < l.list_max_size → l.list_size + 1 ≤ l.list_max_size := by
          intro hm
          by_contra hc
          exact hf ⟨hm, by omega⟩
        simp only at hp
        split at hp
        · simp at hp
        · rename_i h2 l2 hr
          have hl2 : l2.list_max_size = l.list_max_size ∧ l2.list_size = l.list_size := by
            repeat' split at hr
            all_goals first
              | (simp at hr; done)
              | (simp only [Option.some.injEq, Prod.mk.injEq] at hr
                 obtain ⟨_, rfl⟩ := hr
                 exact ⟨rfl, rfl⟩)
          split at hp
          · simp at hp
          · obtain ⟨hm1, hs1⟩ := hind _ _ _ _ _ hp
            refine ⟨hm1.trans hl2.1, fun hm hs => hs1 ?_ ?_⟩
            · show 0 < l2.list_max_size
              rw [hl2.1]
              exact hm
            · show l2.list_size + 1 ≤ l2.list_max_size
              rw [hl2.1, hl2.2]
              exact hlt hm

theorem StringList.moveFrom_size {h : Heap} {l sl : StringList} {h1 : Heap}
    {l1 sl1 : StringList} (hp : moveFrom h l sl = some (h1, l1, sl1)) :
    (l1.list_max_size = l.list_max_size ∧
      (0 < l.list_max_size → l.list_size ≤ l.list_max_size →
        l1.list_size ≤ l1.list_max_size)) ∧
    sl1.list_max_size = sl.list_max_size ∧ sl1.list_size = 0 := by
  unfold moveFrom at hp
  split at hp
  · simp at hp
  · rename_i h2 l2 hloop
    simp only [Option.some.injEq, Prod.mk.injEq] at hp
    obtain ⟨_, rfl, rfl⟩ := hp
    exact ⟨moveLoop_size _ _ _ _ _ _ hloop, rfl, rfl⟩

/-- Every step keeps the bound given at construction and, when it is positive, keeps
`list_size` within it. -/
theorem Step.keeps_bound {s s1 : Heap × StringList} (hs : Step s s1) :
    s1.2.list_max_size = s.2.list_max_size ∧
      (0 < s.2.list_max_size → s.2.list_size ≤ s.2.list_max_size →
        s1.2.list_size ≤ s1.2.list_max_size) := by
  cases hs with
  | push hp => exact push_size hp
  | pushSorted hp => exact SortedStringList.sorted_push_size hp
  | parse hp => exact parseLoop_size _ _ _ _ _ _ _ _ _ hp
  | parseSorted hp => exact SortedStringList.sorted_parseLoop_size _ _ _ _ _ _ _ _ _ hp
  | popFirst hp =>
    obtain ⟨h1, h2⟩ := popFirst_size hp
    exact ⟨h1, fun _ hs => by show _ ≤ _; rw [h1, h2]; exact hs⟩
  | clear hp =>
    obtain ⟨h1, h2⟩ := clear_size hp
    exact ⟨h1, fun hm _ => by show _ ≤ _; rw [h1, h2]; exact le_of_lt hm⟩
  | moveInto hp => exact (moveFrom_size hp).1
  | moveOut hp =>
    obtain ⟨_, h1, h2⟩ := moveFrom_size hp
    exact ⟨h1, fun hm _ => by show _ ≤ _; rw [h1, h2]; exact le_of_lt hm⟩
  | other => exact ⟨rfl, fun _ hs => hs⟩

/-! ## C17 -/

/-- C17: a list (`StringList` or `SortedStringList`) constructed with a positive bound keeps
`size() <= max_size` in every state it reaches through `push`, `parse`, `popFirst`, `clear` and
`moveFrom`, as destination or as source. -/
theorem StringList.size_within_bound (max : Int) (hmax : 0 < max) (s : Heap × StringList)
    (hs : Reachable max s) : s.2.list_max_size = max ∧ size s.2 ≤ max := by
  induction hs with
  | new h0 => exact ⟨rfl, le_of_lt hmax⟩
  | step _ hstep ih =>
    obtain ⟨hm, hle⟩ := hstep.keeps_bound
    refine ⟨hm.trans ih.1, ?_⟩
    have := hle (by rw [ih.1]; exact hmax) (by rw [ih.1]; exact ih.2)
    rw [hm, ih.1] at this
    exact this

/-- C17 at a list with bound 1 that is pushed "a" and then "b". -/
theorem StringList.size_within_bound_witness :
    size (⟨some 0, some 0, 1, 1, some 0, 0⟩ : StringList) ≤ 1 :=
  (StringList.size_within_bound 1 (by decide)
    ([some ⟨[97], none⟩], ⟨some 0, some 0, 1, 1, some 0, 0⟩)
    (Reachable.step
      (Reachable.step (Reachable.new [])
        (@Step.push [] (new 1) [97] 1 true [some ⟨[97], none⟩]
          ⟨some 0, some 0, 1, 1, some 0, 0⟩ (by decide)))
      (@Step.push [some ⟨[97], none⟩] ⟨some 0, some 0, 1, 1, some 0, 0⟩ [98] 1 false
        [some ⟨[97], none⟩] ⟨some 0, some 0, 1, 1, some 0, 0⟩ (by decide)))).2

/-! ## moveFrom -/

theorem set_deref_same {h : Heap} {a : Nat} {n : str_t} (hd : h.deref a = some n) :
    h.set a (some n) = h := by
  induction h generalizing a with
  | nil => rfl
  | cons c cs ih =>
    cases a with
    | zero =>
      have hc : c = some n := by simpa [Heap.deref] using hd
      rw [List.set_cons_zero, hc]
    | succ k =>
      have hk : Heap.deref cs k = some n := by simpa [Heap.deref] using hd
      rw [List.set_cons_succ, ih hk]

theorem length_set_heap (h : Heap) (a : Nat) (x : Option str_t) :
    (h.set a x).length = h.length := List.length_set _ _ _

/-- Linking the last node of one chain to the first node of another. -/
theorem Linked.join {h : Heap} {pre na : List (Nat × CString)} {e : Nat × CString}
    (h1 : Linked h (pre ++ [e])) (h2 : Linked h na)
    (hn : ((pre ++ [e]).map Prod.fst).Nodup)
    (hdis : ∀ x ∈ pre ++ [e], ∀ y ∈ na, x.1 ≠ y.1) :
    Linked (h.set e.1 (some (str_t.mk e.2 (headPtr na)))) (pre ++ e :: na) := by
  have helt : e.1 < h.length := h1.lt (by simp)
  induction pre with
  | nil =>
    refine ⟨deref_set_eq _ _ helt, h2.frame ?_⟩
    intro y hy
    exact deref_set_ne _ _ (hdis e (by simp) y hy)
  | cons x xs ih =>
    simp only [List.cons_append, List.map_cons, List.nodup_cons] at h1 hn ⊢
    refine ⟨?_, ih h1.2 hn.2 (fun z hz => hdis z (List.mem_cons_of_mem _ hz))⟩
    have hne : e.1 ≠ x.1 := by
      intro he
      apply hn.1
      rw [← he]
      simp
    rw [deref_set_ne _ _ hne, h1.1, headPtr_append_cons xs e [] na]

/-- The loop of `moveFrom` on an unbounded list once the node under `ih` is already linked
behind `list_end`: the heap stays as it is, `list_end` moves to the last node and `list_size`
counts the nodes passed. -/
theorem StringList.moveLoop_linked {h : Heap} (todo : List (Nat × CString)) :
    ∀ (front : List (Nat × CString)) (e : Nat × CString) (l : StringList) (fuel : Nat),
      Linked h (front ++ e :: todo) → l.list_begin.isSome = true → l.list_end = some e.1 →
      l.list_max_size ≤ 0 → todo.length < fuel →
      moveLoop fuel h l (headPtr todo) =
        some (h, { l with list_end := lastPtr (e :: todo),
                          list_size := l.list_size + (todo.length : Nat) }) := by
  induction todo with
  | nil =>
    intro front e l fuel _ _ he _ hf
    cases fuel with
    | zero => omega
    | succ k =>
      simp only [headPtr, List.head?_nil, Option.map_none', moveLoop, lastPtr,
        List.getLast?_singleton, Option.map_some', List.length_nil, Nat.cast_zero, add_zero,
        ← he]
  | cons x todo ih =>
    intro front e l fuel hl hb he hmax hf
    cases fuel with
    | zero => omega
    | succ k =>
      have hde : h.deref e.1 = some { ptr := e.2, next := some x.1 } := hl.deref_mid
      have hl2 : Linked h ((front ++ [e]) ++ x :: todo) := by simpa using hl
      have hdx : h.deref x.1 = some { ptr := x.2, next := headPtr todo } := hl2.deref_mid
      have hnf : ¬ (l.list_max_size > 0 ∧ l.list_size ≥ l.list_max_size) := by omega
      obtain ⟨b, hb1⟩ := Option.isSome_iff_exists.mp hb
      have hstep := ih (front ++ [e]) x
        { l with list_end := some x.1, list_size := l.list_size + 1 } k hl2
        (by simp [hb1]) rfl hmax (by simpa using hf)
      simp only [headPtr_cons, moveLoop, hnf, if_false, hb1, he, hde, Heap.store,
        set_deref_same hde, hdx]
      rw [← hb1, hstep]
      simp only [lastPtr_cons_cons, List.length_cons, Nat.cast_add, Nat.cast_one,
        Option.some.injEq, Prod.mk.injEq, true_and]
      congr 1
      omega

theorem lastPtr_mem {ns : List (Nat × CString)} {e : Nat} (he : lastPtr ns = some e) :
    e ∈ ns.map Prod.fst := by
  rcases eq_nil_or_snoc ns with rfl | ⟨pre, x, rfl⟩
  · simp [lastPtr] at he
  · rw [lastPtr_append_singleton] at he
    simp only [Option.some.injEq] at he
    subst he
    simp

/-- The list `b` takes over all nodes of `a` when it is unbounded: afterwards it holds its
old nodes followed by those of `a`. -/
theorem StringList.moveFrom_unbounded_spec {h : Heap} {b a : StringList}
    {nb na : List (Nat × CString)} (hb : Holds h b nb) (ha : Holds h a na)
    (hdis : ∀ x ∈ nb, ∀ y ∈ na, x.1 ≠ y.1) (hmax : b.list_max_size ≤ 0) :
    ∃ h1 b1, moveFrom h b a = some (h1, b1,
        { a with list_begin := none, list_end := none, list_size := 0, list_h := none,
                 list_pos := 0 }) ∧
      Holds h1 b1 (nb ++ na) ∧ b1.list_size = b.list_size + (na.length : Nat) ∧
      b1.list_max_size = b.list_max_size := by
  have hnf : ¬ (b.list_max_size > 0 ∧ b.list_size ≥ b.list_max_size) := by omega
  have hnd : ((nb ++ na).map Prod.fst).Nodup := by
    rw [List.map_append]
    refine List.Nodup.append hb.nodup ha.nodup ?_
    intro p hp1 hp2
    obtain ⟨x, hx, rfl⟩ := List.mem_map.mp hp1
    obtain ⟨y, hy, hxy⟩ := List.mem_map.mp hp2
    exact hdis x hx y hy hxy.symm
  have hlen : na.length ≤ h.length := ha.linked.length_le ha.nodup
  cases na with
  | nil =>
    have hab : a.list_begin = none := ha.head_eq
    refine ⟨h, b, ?_, by simpa using hb, by simp, rfl⟩
    simp only [moveFrom, hab, Heap.fuel, moveLoop]
  | cons x todo =>
    have hab : a.list_begin = some x.1 := ha.head_eq
    have hdx : h.deref x.1 = some { ptr := x.2, next := headPtr todo } := ha.linked.1
    simp only [List.length_cons] at hlen
    rcases eq_nil_or_snoc nb with rfl | ⟨pre, e, rfl⟩
    · have hbb : b.list_begin = none := hb.head_eq
      have hloop := @moveLoop_linked h todo [] x
        { b with list_begin := some x.1, list_end := some x.1, list_h := some x.1,
                 list_size := b.list_size + 1 } h.length ha.linked rfl rfl hmax (by omega)
      have hmove : moveFrom h b a = some (h,
          { b with list_begin := some x.1, list_end := lastPtr (x :: todo),
                   list_h := some x.1, list_size := b.list_size + 1 + (todo.length : Nat) },
          { a with list_begin := none, list_end := none, list_size := 0, list_h := none,
                   list_pos := 0 }) := by
        simp only [moveFrom, hab, Heap.fuel, moveLoop, hnf, if_false, hbb, hdx, hloop]
      refine ⟨_, _, hmove, ⟨ha.linked, by simpa using hnd, rfl, rfl⟩, ?_, rfl⟩
      show b.list_size + 1 + (todo.length : Nat) = _
      simp only [List.length_cons]
      push_cast
      omega
    · have hbb : b.list_begin.isSome = true := by
        rw [hb.head_eq]
        cases pre <;> simp [headPtr]
      obtain ⟨b0, hb0⟩ := Option.isSome_iff_exists.mp hbb
      have hbe : b.list_end = some e.1 := by rw [hb.last_eq, lastPtr_append_singleton]
      have hde : h.deref e.1 = some { ptr := e.2, next := none } := hb.linked.deref_mid
      have hjoin := Linked.join hb.linked ha.linked hb.nodup hdis
      rw [headPtr_cons] at hjoin
      have hdx1 : Heap.deref (h.set e.1 (some (str_t.mk e.2 (some x.1)))) x.1 =
          some { ptr := x.2, next := headPtr todo } := by
        rw [deref_set_ne _ _ (hdis e (by simp) x (by simp)), hdx]
      have hloop := @moveLoop_linked (h.set e.1 (some (str_t.mk e.2 (some x.1)))) todo
        (pre ++ [e]) x
        { b with list_begin := some b0, list_end := some x.1, list_size := b.list_size + 1 }
        h.length (by simpa using hjoin) rfl rfl hmax (by omega)
      have hmove : moveFrom h b a = some (h.set e.1 (some (str_t.mk e.2 (some x.1))),
          { b with list_begin := some b0, list_end := lastPtr (x :: todo),
                   list_size := b.list_size + 1 + (todo.length : Nat) },
          { a with list_begin := none, list_end := none, list_size := 0, list_h := none,
                   list_pos := 0 }) := by
        simp only [moveFrom, hab, Heap.fuel, moveLoop, hnf, if_false, hb0, hbe, hde, Heap.store,
          hdx1, hloop]
      refine ⟨_, _, hmove, ⟨by simpa using hjoin, by simpa using hnd, ?_, ?_⟩, ?_, rfl⟩
      · show some b0 = _
        rw [← hb0, hb.head_eq, List.append_assoc]
        exact headPtr_append_cons pre e [] ([] ++ x :: todo)
      · show lastPtr (x :: todo) = _
        rw [lastPtr_append_cons]
      · show b.list_size + 1 + (todo.length : Nat) = _
        simp only [List.length_cons]
        push_cast
        omega

/-- What `push` leaves alone: every cell that was allocated before and is not a node of the
list pushed to. -/
theorem StringList.push_frame {h : Heap} {l : StringList} {ns : List (Nat × CString)}
    (hh : Holds h l ns) {str : CString} {len : Nat} {r : Bool} {h1 : Heap} {l1 : StringList}
    (hp : push h l str len = some (r, h1, l1)) :
    ∀ a, a < h.length → a ∉ ns.map Prod.fst → h1.deref a = h.deref a := by
  intro a halt hna
  unfold push at hp
  split at hp
  · simp only [Option.some.injEq, Prod.mk.injEq] at hp
    obtain ⟨_, rfl, _⟩ := hp
    rfl
  · simp only [Heap.malloc] at hp
    split at hp
    · simp only [Option.some.injEq, Prod.mk.injEq] at hp
      obtain ⟨_, rfl, _⟩ := hp
      exact deref_append_lt _ _ halt
    · split at hp
      · simp at hp
      · rename_i e he
        split at hp
        · simp at hp
        · simp only [Option.some.injEq, Prod.mk.injEq, Heap.store] at hp
          obtain ⟨_, rfl, _⟩ := hp
          have hmem : e ∈ ns.map Prod.fst := lastPtr_mem (hh.last_eq ▸ he)
          have hne : e ≠ a := fun hea => hna (hea ▸ hmem)
          rw [deref_set_ne _ _ hne, deref_append_lt _ _ halt]

/-- Pushes on one list leave the nodes of another list in the same heap as they are, and
the new nodes are none of the other list's. -/
theorem Filled.runPush_beside {h : Heap} {l : StringList} {ns : List (Nat × CString)}
    (hh : Filled h l ns) {b : StringList} {nb : List (Nat × CString)} (hb : Holds h b nb)
    (hdis : ∀ x ∈ nb, ∀ y ∈ ns, x.1 ≠ y.1) (ss : List CString) :
    ∃ rs h1 l1 ns1, Deauther.runPush pushString ss h l = some (rs, h1, l1) ∧
      Filled h1 l1 ns1 ∧ ns1.map Prod.snd = ns.map Prod.snd ++ accepted ss rs ∧
      Holds h1 b nb ∧ (∀ x ∈ nb, ∀ y ∈ ns1, x.1 ≠ y.1) := by
  induction ss generalizing h l ns with
  | nil => exact ⟨[], h, l, ns, rfl, hh, by simp [accepted], hb, hdis⟩
  | cons s ss ih =>
    by_cases hf : l.list_max_size > 0 ∧ l.list_size ≥ l.list_max_size
    · obtain ⟨rs, h1, l1, ns1, hr, hh1, hv, hb1, hd1⟩ := ih hh hb hdis
      refine ⟨false :: rs, h1, l1, ns1, ?_, hh1, ?_, hb1, hd1⟩
      · rw [runPush_cons]
        simp only [pushString, push_full hf, hr]
      · simpa [accepted] using hv
    · obtain ⟨h0, l0, hp, hh0, _⟩ := hh.pushString_ok hf s
      have hfr := push_frame hh.holds hp
      have hb0 : Holds h0 b nb := hb.frame_heap (by
        intro x hx
        refine hfr x.1 (hb.linked.lt hx) ?_
        intro hm
        obtain ⟨y, hy, hxy⟩ := List.mem_map.mp hm
        exact hdis x hx y hy hxy.symm)
      have hd0 : ∀ x ∈ nb, ∀ y ∈ ns ++ [(h.length, s)], x.1 ≠ y.1 := by
        intro x hx y hy
        rcases List.mem_append.mp hy with hy1 | hy1
        · exact hdis x hx y hy1
        · rw [List.mem_singleton.mp hy1]
          exact Nat.ne_of_lt (hb.linked.lt hx)
      obtain ⟨rs, h1, l1, ns1, hr, hh1, hv, hb1, hd1⟩ := ih hh0 hb0 hd0
      refine ⟨true :: rs, h1, l1, ns1, ?_, hh1, ?_, hb1, hd1⟩
      · rw [runPush_cons, hp]
        simp only [hr]
      · simpa [accepted] using hv

/-! ## C11 -/

/-- C11: let B be an unbounded list (`max_size` 0) holding any nodes `nb`, and let A be another
list built from empty by pushes in the same heap, its cursor left anywhere (any `list_h`, any
`list_pos`). Then `B.moveFrom(A)` returns, B's chain is its old values followed by all of A's
values in A's order, `B.size()` is the sum of the two old sizes, and A is empty: size 0, no
head, no tail, cursor unset, position 0. -/
theorem StringList.moveFrom_unbounded_takes_all (h0 : Heap) (b : StringList)
    (nb : List (Nat × CString)) (hb : Holds h0 b nb) (hmax : b.list_max_size = 0)
    (maxA : Int) (ss : List CString) (c : Option Nat) (p : Int) :
    ∃ rs h a h1 b1 a1, runPush pushString ss h0 (new maxA) = some (rs, h, a) ∧
      moveFrom h b { a with list_h := c, list_pos := p } = some (h1, b1, a1) ∧
      chain h1 b1 = some (nb.map Prod.snd ++ accepted ss rs) ∧
      size b1 = size b + size a ∧
      size a1 = 0 ∧ a1.list_begin = none ∧ a1.list_end = none ∧ a1.list_h = none ∧
      a1.list_pos = 0 ∧ chain h1 a1 = some [] := by
  obtain ⟨rs, h, a, na, hr, hfa, hva, hb1, hdis⟩ :=
    (Filled.of_new h0 maxA).runPush_beside hb (by simp) ss
  obtain ⟨h1, b1, hmove, hh1, hsize, _⟩ :=
    moveFrom_unbounded_spec hb1 (hfa.holds.cursor_moved c p) hdis (le_of_eq hmax)
  refine ⟨rs, h, a, h1, b1, _, hr, hmove, ?_, ?_, rfl, rfl, rfl, rfl, rfl, rfl⟩
  · rw [hh1.chain_eq, List.map_append]
    simpa using hva
  · show b1.list_size = b.list_size + a.list_size
    rw [hsize, hfa.size_eq]

/-- C11 at B new and unbounded and A pushed "1", "2", "3", the cursor of A moved by two
`iterate()` calls to the node "3" at position 2. -/
theorem StringList.moveFrom_unbounded_takes_all_witness :
    ∃ h1 b1 a1, moveFrom
        [some ⟨[49], some 1⟩, some ⟨[50], some 2⟩, some ⟨[51], none⟩] (new 0)
        ⟨some 0, some 2, 3, 0, some 2, 2⟩ = some (h1, b1, a1) ∧
      chain h1 b1 = some [[49], [50], [51]] ∧ size b1 = 3 ∧ size a1 = 0 ∧
      a1.list_h = none ∧ a1.list_pos = 0 ∧ chain h1 a1 = some [] := by
  obtain ⟨rs, h, a, h1, b1, a1, hr, hm, hc, hs, hs0, _, _, hcur, hpos, hc0⟩ :=
    StringList.moveFrom_unbounded_takes_all [] (new 0) []
      ⟨trivial, List.nodup_nil, rfl, rfl⟩ rfl 0 [[49], [50], [51]] (some 2) 2
  have he : runPush pushString [[49], [50], [51]] [] (new 0) =
      some ([true, true, true],
        [some ⟨[49], some 1⟩, some ⟨[50], some 2⟩, some ⟨[51], none⟩],
        ⟨some 0, some 2, 3, 0, some 0, 0⟩) := by decide
  rw [he] at hr
  simp only [Option.some.injEq, Prod.mk.injEq] at hr
  obtain ⟨rfl, rfl, rfl⟩ := hr
  exact ⟨h1, b1, a1, hm, hc, hs, hs0, hcur, hpos, hc0⟩

/-! ## C15 and C20 -/

theorem insertBeforeGreater_split (t : CString) (pre post : List CString)
    (h1 : ∀ v ∈ pre, strcmp v t < 0) (h2 : ∀ v ∈ post, strcmp t v < 0) :
    insertBeforeGreater t (pre ++ post) = pre ++ t :: post := by
  induction pre with
  | nil =>
    cases post with
    | nil => rfl
    | cons w ws =>
      have hw : strcmp t w < 0 := h2 w (by simp)
      simp [insertBeforeGreater, hw]
  | cons v vs ih =>
    have hv : strcmp v t < 0 := h1 v (by simp)
    have hnot : ¬ strcmp t v < 0 := by
      rw [strcmp_neg v t]
      omega
    have hrec := ih (fun w hw => h1 w (List.mem_cons_of_mem _ hw))
    rw [List.cons_append]
    show (if strcmp t v < 0 then t :: v :: (vs ++ post)
      else v :: insertBeforeGreater t (vs ++ post)) = _
    rw [if_neg hnot, hrec]
    rfl

/-- C15: on a sorted list that holds a strictly ascending chain and is not full, pushing a
text `t` that is not in the chain returns true, `size()` grows by one, and the new chain is the
old one with `t` inserted immediately before the first value greater than `t`: the old values
split into those less than `t`, kept in order before it, and those greater, kept in order
after it. -/
theorem SortedStringList.push_inserts_before_first_greater (h : Heap) (l : StringList)
    (ns : List (Nat × CString)) (t : CString) (hh : Holds h l ns)
    (hs : (ns.map Prod.snd).Pairwise (fun a b => strcmp a b < 0))
    (hf : full l = false) (ht : t ∉ ns.map Prod.snd) :
    ∃ h1 l1 pre post, SortedStringList.pushString h l t = some (true, h1, l1) ∧
      size l1 = size l + 1 ∧ ns.map Prod.snd = pre ++ post ∧
      (∀ v ∈ pre, strcmp v t < 0) ∧ (∀ v ∈ post, strcmp t v < 0) ∧
      chain h1 l1 = some (pre ++ t :: post) ∧
      chain h1 l1 = some (insertBeforeGreater t (ns.map Prod.snd)) := by
  have hnf : ¬ (l.list_max_size > 0 ∧ l.list_size ≥ l.list_max_size) := by
    simpa [full] using hf
  have hspec := SortedStringList.push_spec_of_holds hh hs hnf t t.length
  rw [List.take_length] at hspec
  rcases hspec with ⟨hmem, _⟩ | ⟨pre, post, h1, l1, hns, hpre, hpost, hp, hh1, hsz, _, _, _⟩
  · exact absurd hmem ht
  · have hpre1 : ∀ v ∈ pre.map Prod.snd, strcmp v t < 0 := by
      intro v hv
      obtain ⟨x, hx, rfl⟩ := List.mem_map.mp hv
      exact hpre x hx
    have hpost1 : ∀ v ∈ post.map Prod.snd, strcmp t v < 0 := by
      intro v hv
      obtain ⟨x, hx, rfl⟩ := List.mem_map.mp hv
      exact hpost x hx
    have hc : chain h1 l1 = some (pre.map Prod.snd ++ t :: post.map Prod.snd) := by
      rw [hh1.chain_eq]
      simp
    refine ⟨h1, l1, pre.map Prod.snd, post.map Prod.snd, hp, hsz, by rw [hns]; simp,
      hpre1, hpost1, hc, ?_⟩
    rw [hc, hns, List.map_append, insertBeforeGreater_split t _ _ hpre1 hpost1]

/-- C15 at the sorted list holding "a", "c" and the text "b". -/
theorem SortedStringList.push_inserts_before_first_greater_witness :
    ∃ h1 l1, SortedStringList.pushString [some ⟨[97], some 1⟩, some ⟨[99], none⟩]
        ⟨some 0, some 1, 2, 0, some 0, 0⟩ [98] = some (true, h1, l1) ∧
      size l1 = 3 ∧ chain h1 l1 = some [[97], [98], [99]] := by
  obtain ⟨h1, l1, pre, post, hp, hsz, _, _, _, _, hc⟩ :=
    SortedStringList.push_inserts_before_first_greater
      [some ⟨[97], some 1⟩, some ⟨[99], none⟩] ⟨some 0, some 1, 2, 0, some 0, 0⟩
      [(0, [97]), (1, [99])] [98]
      ⟨⟨rfl, rfl, trivial⟩, by decide, rfl, rfl⟩ (by decide) (by decide) (by decide)
  exact ⟨h1, l1, hp, hsz, hc⟩

/-- C20: on a sorted list that holds a strictly ascending chain with `list_end` on its last
node, when the text `t` is not less than the head value and not greater than the tail value,
the walk of the in-between branch returns; and when it stops on a node whose value is not
equal to `t`, that value is greater than `t` and the trailing pointer `tmp_p` is the allocated
node right before it, so the splice writes through a live predecessor and `push` returns. -/
theorem SortedStringList.splice_has_predecessor (h : Heap) (l : StringList)
    (ns : List (Nat × CString)) (t : CString) (hh : Holds h l ns)
    (hs : (ns.map Prod.snd).Pairwise (fun a b => strcmp a b < 0))
    (b e : Nat × CString) (hb : ns.head? = some b) (he : ns.getLast? = some e)
    (c1 : ¬ strcmp b.2 t > 0) (c2 : ¬ strcmp e.2 t < 0) :
    ∃ c tmp_p, c ∈ ns ∧
      SortedStringList.pushWalk (h.malloc ⟨t, none⟩).2 ⟨t, none⟩ (h.malloc ⟨t, none⟩).2.fuel
        b.1 none (strcmp b.2 t) = some (c.1, tmp_p, strcmp c.2 t) ∧
      (strcmp c.2 t ≠ 0 → strcmp t c.2 < 0 ∧
        ∃ p, p ∈ ns ∧ tmp_p = some p.1 ∧
          Heap.deref (Heap.store (h.malloc ⟨t, none⟩).2 (h.malloc ⟨t, none⟩).1
            ⟨t, some c.1⟩) p.1 = some ⟨p.2, some c.1⟩) ∧
      (SortedStringList.push h l t t.length).isSome = true := by
  have hsome : (SortedStringList.push h l t t.length).isSome = true := by
    by_cases hf : l.list_max_size > 0 ∧ l.list_size ≥ l.list_max_size
    · rw [SortedStringList.sorted_push_full hf]; rfl
    · rcases SortedStringList.push_spec_of_holds hh hs hf t t.length with
        ⟨_, hp⟩ | ⟨_, _, _, _, _, _, _, hp, _⟩
      · rw [hp]; rfl
      · rw [hp]; rfl
  cases ns with
  | nil => simp at hb
  | cons b0 tl =>
    simp only [List.head?_cons, Option.some.injEq] at hb
    subst hb
    obtain ⟨pre0, e0, hns⟩ : ∃ pre0 e0, b0 :: tl = pre0 ++ [e0] := by
      rcases eq_nil_or_snoc (b0 :: tl) with h0 | h0
      · simp at h0
      · exact h0
    have he0 : e0 = e := by
      rw [hns, List.getLast?_append, List.getLast?_singleton] at he
      simpa using he
    subst he0
    have hcell := hh.append_cell (some (str_t.mk t none))
    have hfuel : tl.length < Heap.fuel (h ++ [some (str_t.mk t none)]) := by
      have := hh.linked.length_le hh.nodup
      simp only [Heap.fuel, List.length_append, List.length_cons, List.length_nil] at this ⊢
      omega
    obtain ⟨pre1, c, rest1, hsplit, hw, hp1, hr1⟩ :=
      SortedStringList.pushWalk_spec (str_t.mk t none) tl [] b0 _ hcell.linked hfuel
        (by simp)
    simp only [List.nil_append, lastPtr_nil] at hsplit hw
    have hres : ¬ strcmp c.2 t < 0 := by
      rcases hr1 with hr | hr
      · subst hr
        have h3 : pre1 ++ [c] = pre0 ++ [e0] := by rw [← hsplit, ← hns]
        have h4 := (List.append_inj' h3 rfl).2
        simp only [List.cons.injEq, and_true] at h4
        rw [h4]
        exact c2
      · exact hr
    refine ⟨c, lastPtr pre1, by rw [hsplit]; simp, hw, ?_, hsome⟩
    intro c3
    refine ⟨strcmp_pos_iff.mp (by omega), ?_⟩
    obtain ⟨pre2, p, hp⟩ : ∃ pre2 p, pre1 = pre2 ++ [p] := by
      rcases eq_nil_or_snoc pre1 with h0 | h0
      · subst h0
        simp only [List.nil_append, List.cons.injEq] at hsplit
        rw [← hsplit.1] at hres c3
        exfalso
        omega
      · exact h0
    subst hp
    have hsplit2 : b0 :: tl = pre2 ++ p :: c :: rest1 := by rw [hsplit]; simp
    have hl2 : Linked h (pre2 ++ p :: c :: rest1) := hsplit2 ▸ hh.linked
    have hdp : h.deref p.1 = some { ptr := p.2, next := some c.1 } := hl2.deref_mid
    have hplt : p.1 < h.length := deref_lt hdp
    refine ⟨p, by rw [hsplit2]; simp, lastPtr_append_singleton _ _, ?_⟩
    simp only [Heap.malloc, Heap.store, set_length_append, deref_append_lt _ _ hplt, hdp]

/-- C20 at the sorted list holding "a", "c" and the text "b". -/
theorem SortedStringList.splice_has_predecessor_witness :
    ∃ (c : Nat × CString) (tmp_p : Option Nat), SortedStringList.pushWalk
        [some ⟨[97], some 1⟩, some ⟨[99], none⟩, some ⟨[98], none⟩] ⟨[98], none⟩ 4 0 none
        (strcmp [97] [98]) = some (c.1, tmp_p, strcmp c.2 [98]) ∧
      (strcmp c.2 [98] ≠ 0 → strcmp [98] c.2 < 0 ∧ ∃ p : Nat × CString, tmp_p = some p.1) := by
  obtain ⟨c, tmp_p, _, hw, hsp, _⟩ :=
    SortedStringList.splice_has_predecessor
      [some ⟨[97], some 1⟩, some ⟨[99], none⟩] ⟨some 0, some 1, 2, 0, some 0, 0⟩
      [(0, [97]), (1, [99])] [98]
      ⟨⟨rfl, rfl, trivial⟩, by decide, rfl, rfl⟩ (by decide)
      (0, [97]) (1, [99]) rfl rfl (by decide) (by decide)
  refine ⟨c, tmp_p, hw, fun hne => ?_⟩
  obtain ⟨hlt, p, _, hp, _⟩ := hsp hne
  exact ⟨hlt, p, hp⟩

end Deauther
